import Mathlib

/-!
# gon3: escape decoding, RDF terms and graph rendering

A shallow embedding of `rdf.go` (package `gon3`).  Go strings are byte
sequences, so every string of the program is a list of bytes here and all
indices and lengths are byte counts.  The functions of Go's standard library
that the program calls (`strings.Index`, `strings.Replace`,
`strconv.ParseInt`, the rune-to-string conversion, `fmt`'s `%q`, a part of
`url.Parse`) are embedded next to the program's own functions.
-/

namespace Gon3

/-! ## Strings -/

/-- A Go string: an immutable sequence of bytes. -/
abbrev Str := List UInt8

/-- The bytes of an ASCII text, used to write down string constants. -/
def ascii (t : String) : Str := t.toList.map (fun c => UInt8.ofNat c.toNat)

/-- The two ways `strconv.ParseInt` fails: `strconv.ErrSyntax` and `strconv.ErrRange`. -/
inductive NumError where
  | ErrSyntax
  | ErrRange
  deriving DecidableEq

/-- The run-time panics the program can raise: `panic(err)` with the error of
`strconv.ParseInt`, and Go's "slice bounds out of range". -/
inductive Panic where
  | numError (e : NumError)
  | sliceBounds
  deriving DecidableEq

/-- What a call does: it returns a value, it panics, or (for the loop of
`unescapeUChar`, which is run with an iteration budget) the budget ran out
before the loop was left. -/
inductive Outcome (α : Type) where
  | ok (a : α)
  | panic (p : Panic)
  | unfinished
  deriving DecidableEq

/-- Sequencing: the second computation runs on the value the first returned. -/
def Outcome.bind {α β : Type} (x : Outcome α) (f : α → Outcome β) : Outcome β :=
  match x with
  | .ok a => f a
  | .panic p => .panic p
  | .unfinished => .unfinished

/-- Go's `strings.HasPrefix(s, pre)`. -/
def hasPrefix (s pre : Str) : Bool := pre.isPrefixOf s

/-- Go's `strings.Index(s, sub)`: the byte index of the first occurrence of
`sub` in `s`; `none` stands for Go's `-1`. -/
def index (s sub : Str) : Option Nat :=
  match s with
  | [] => if sub.isPrefixOf [] then some 0 else none
  | c :: t => if sub.isPrefixOf (c :: t) then some 0 else (index t sub).map (· + 1)

/-- The loop of Go's `strings.Replace(s, old, new, -1)` for a non-empty `old`:
find the next occurrence in what is left, copy what precedes it, write `new`,
continue after the occurrence.  The first argument bounds the number of
replacements, as Go's `n` does. -/
def replaceLoop (old new : Str) : Nat → Str → Str
  | 0, s => s
  | k + 1, s =>
    match index s old with
    | none => s
    | some j => s.take j ++ new ++ replaceLoop old new k (s.drop (j + old.length))

/-- Go's `strings.Replace(s, old, new, -1)` for a non-empty `old` (every call
in `rdf.go` passes a two-byte `old`): all non-overlapping occurrences, left to
right.  Go bounds the loop by `Count(s, old)`; the length of `s`, which that
count never exceeds, is used here (`replaceLoop_budgets`: the bound is never
what stops the loop). -/
def replaceAll (s old new : Str) : Str := replaceLoop old new s.length s

/-- Go's `s[lo:hi]` on a string, with its bounds check. -/
def slice (s : Str) (lo hi : Int) : Outcome Str :=
  if 0 ≤ lo ∧ lo ≤ hi ∧ hi ≤ (s.length : Int) then
    .ok ((s.drop lo.toNat).take (hi - lo).toNat)
  else .panic .sliceBounds

/-! ## `strconv.ParseInt` -/

/-- The helper `lower` of `strconv`: `c | ('x' - 'X')`. -/
def lower (c : UInt8) : UInt8 := c ||| 0x20

/-- The digit switch of `strconv.ParseUint`: the value of the byte `c` as a
digit, `none` where Go returns a syntax error (the underscore case needs base 0). -/
def digitVal (c : UInt8) : Option Nat :=
  if 0x30 ≤ c.toNat ∧ c.toNat ≤ 0x39 then some (c.toNat - 0x30)
  else if 0x61 ≤ (lower c).toNat ∧ (lower c).toNat ≤ 0x7A then some ((lower c).toNat - 0x61 + 10)
  else none

/-- The digit loop of `strconv.ParseUint` with accumulator `n`.  It returns
the value and the error, as Go does (`maxVal` with `ErrRange`, `0` with
`ErrSyntax`). -/
def parseUintLoop (base maxVal cutoff : Nat) : Str → Nat → Nat × Option NumError
  | [], n => (n, none)
  | c :: cs, n =>
    match digitVal c with
    | none => (0, some .ErrSyntax)
    | some d =>
      if d ≥ base then (0, some .ErrSyntax)
      else if n ≥ cutoff then (maxVal, some .ErrRange)
      else if n * base + d > maxVal then (maxVal, some .ErrRange)
      else parseUintLoop base maxVal cutoff cs (n * base + d)

/-- Go's `strconv.ParseUint(s, base, bitSize)` for `2 ≤ base ≤ 36` and
`1 ≤ bitSize ≤ 64`.  With `n < cutoff` the 64-bit sum `n*base + d` cannot
wrap, so Go's test `n1 < n` never fires and is left out. -/
def parseUint (s : Str) (base bitSize : Nat) : Nat × Option NumError :=
  if s = [] then (0, some .ErrSyntax)
  else parseUintLoop base (2 ^ bitSize - 1) ((2 ^ 64 - 1) / base + 1) s 0

/-- Go's `strconv.ParseInt(s, base, bitSize)`: an optional sign, then
`ParseUint`, then the signed range check. -/
def parseInt (s : Str) (base bitSize : Nat) : Except NumError Int :=
  match s with
  | [] => .error .ErrSyntax
  | c :: rest =>
    let neg : Bool := c == 0x2D
    let body : Str := if c == 0x2B then rest else if c == 0x2D then rest else s
    match parseUint body base bitSize with
    | (_, some .ErrSyntax) => .error .ErrSyntax
    | (un, _) =>
      let cutoff : Nat := 2 ^ (bitSize - 1)
      if !neg && un ≥ cutoff then .error .ErrRange
      else if neg && un > cutoff then .error .ErrRange
      else .ok (if neg then -(un : Int) else (un : Int))

/-! ## Runes and UTF-8 -/

/-- The replacement character `utf8.RuneError`. -/
def runeError : Nat := 0xFFFD

/-- Go's `utf8.AppendRune` on the unsigned value of a rune: the UTF-8
encoding, with `U+FFFD` for surrogates and values above `U+10FFFF`.  Go's
shifts and masks are written as divisions and remainders. -/
def encodeRune (r : Nat) : Str :=
  if r ≤ 0x7F then [UInt8.ofNat r]
  else if r ≤ 0x7FF then [UInt8.ofNat (0xC0 + r / 64), UInt8.ofNat (0x80 + r % 64)]
  else if r > 0x10FFFF ∨ (0xD800 ≤ r ∧ r ≤ 0xDFFF) then [0xEF, 0xBF, 0xBD]
  else if r ≤ 0xFFFF then
    [UInt8.ofNat (0xE0 + r / 4096), UInt8.ofNat (0x80 + r / 64 % 64), UInt8.ofNat (0x80 + r % 64)]
  else
    [UInt8.ofNat (0xF0 + r / 262144), UInt8.ofNat (0x80 + r / 4096 % 64),
     UInt8.ofNat (0x80 + r / 64 % 64), UInt8.ofNat (0x80 + r % 64)]

/-- Go's conversion `rune(num)` of an `int64`: the low 32 bits, signed. -/
def toRune (num : Int) : Int := (num + 2 ^ 31) % 2 ^ 32 - 2 ^ 31

/-- Go's `string(r)` for a rune `r`: the UTF-8 encoding of `r`, and of
`U+FFFD` when `r` is negative or otherwise not a valid code point. -/
def runeToString (r : Int) : Str :=
  if r < 0 then encodeRune runeError else encodeRune r.toNat

/-- Go's `utf8.DecodeRuneInString`: the first rune of `s` and its width in
bytes; `(U+FFFD, 1)` on an invalid encoding, `(U+FFFD, 0)` on the empty string. -/
def decodeRune (s : Str) : Nat × Nat :=
  match s with
  | [] => (runeError, 0)
  | s0 :: rest =>
    let b0 := s0.toNat
    if b0 < 0x80 then (b0, 1)
    else if b0 < 0xC2 ∨ 0xF4 < b0 then (runeError, 1)
    else
      let sz : Nat := if b0 < 0xE0 then 2 else if b0 < 0xF0 then 3 else 4
      let lo : Nat := if b0 = 0xE0 then 0xA0 else if b0 = 0xF0 then 0x90 else 0x80
      let hi : Nat := if b0 = 0xED then 0x9F else if b0 = 0xF4 then 0x8F else 0xBF
      if s.length < sz then (runeError, 1)
      else
        match rest with
        | [] => (runeError, 1)
        | s1 :: rest1 =>
          let b1 := s1.toNat
          if b1 < lo ∨ hi < b1 then (runeError, 1)
          else if sz ≤ 2 then (b0 % 32 * 64 + b1 % 64, 2)
          else
            match rest1 with
            | [] => (runeError, 1)
            | s2 :: rest2 =>
              let b2 := s2.toNat
              if b2 < 0x80 ∨ 0xBF < b2 then (runeError, 1)
              else if sz ≤ 3 then (b0 % 16 * 4096 + b1 % 64 * 64 + b2 % 64, 3)
              else
                match rest2 with
                | [] => (runeError, 1)
                | s3 :: _ =>
                  let b3 := s3.toNat
                  if b3 < 0x80 ∨ 0xBF < b3 then (runeError, 1)
                  else (b0 % 8 * 262144 + b1 % 64 * 4096 + b2 % 64 * 64 + b3 % 64, 4)

/-! ## The escape decoders of `rdf.go` -/

/-- The table `replacements` of `unescapeEChar`, in the order of the source:
backslash-`t` to TAB, backslash-`b` to BS, backslash-`n` to LF, backslash-`r`
to CR, backslash-`f` to FF, backslash-quote to the quote (double, then
single), and two backslashes to one. -/
def replacements : List (Str × Str) :=
  [ ([0x5C, 0x74], [0x09]),
    ([0x5C, 0x62], [0x08]),
    ([0x5C, 0x6E], [0x0A]),
    ([0x5C, 0x72], [0x0D]),
    ([0x5C, 0x66], [0x0C]),
    ([0x5C, 0x22], [0x22]),
    ([0x5C, 0x27], [0x27]),
    ([0x5C, 0x5C], [0x5C]) ]

/-- The function `unescapeEChar`: one `strings.Replace(s, old, new, -1)` per
row of the table, each on the result of the one before. -/
def unescapeEChar (s : Str) : Str :=
  replacements.foldl (fun acc r => replaceAll acc r.1 r.2) s

/-- The introducer backslash-`u`. -/
def introU4 : Str := [0x5C, 0x75]

/-- The introducer backslash-`U`. -/
def introU8 : Str := [0x5C, 0x55]

/-- The `if`/`else if`/`else` at the head of the loop of `unescapeUChar`: the
triple `(start, hex, end)` cut out of `s`, or `none` where the source breaks
out of the loop.  A backslash-`u` anywhere in `s` is taken before any
backslash-`U`; a field that would run past the end of `s` is cut short. -/
def splitEscape (s : Str) : Option (Str × Str × Str) :=
  match index s introU4, index s introU8 with
  | some uIdx, _ =>
    if uIdx + 6 > s.length then some (s.take uIdx, s.drop (uIdx + 2), [])
    else some (s.take uIdx, (s.drop (uIdx + 2)).take 4, s.drop (uIdx + 6))
  | none, some UIdx =>
    if UIdx + 10 > s.length then some (s.take UIdx, s.drop (UIdx + 2), [])
    else some (s.take UIdx, (s.drop (UIdx + 2)).take 8, s.drop (UIdx + 10))
  | none, none => none

/-- The loop of `unescapeUChar`, run for at most `fuel` iterations. -/
def unescapeUCharLoop : Nat → Str → Outcome Str
  | 0, _ => .unfinished
  | fuel + 1, s =>
    match splitEscape s with
    | none => .ok s
    | some (start, hex, tail) =>
      match parseInt hex 16 32 with
      | .error e => .panic (.numError e)
      | .ok num => unescapeUCharLoop fuel (start ++ runeToString (toRune num) ++ tail)

/-- The function `unescapeUChar`.  Every iteration that does not leave the
loop makes `s` shorter, so `len(s) + 1` iterations are enough for the loop to
be left (`unescapeUChar_finishes`). -/
def unescapeUChar (s : Str) : Outcome Str := unescapeUCharLoop (s.length + 1) s

/-- The function `lexicalForm`: strip three bytes on each side when the token
starts with three double or three single quotes, one byte otherwise; then the
Unicode pass, then the short-escape pass. -/
def lexicalForm (s : Str) : Outcome Str :=
  let unquoted : Outcome Str :=
    if hasPrefix s [0x22, 0x22, 0x22] || hasPrefix s [0x27, 0x27, 0x27] then
      slice s 3 ((s.length : Int) - 3)
    else
      slice s 1 ((s.length : Int) - 1)
  unquoted.bind fun q => (unescapeUChar q).bind fun u => .ok (unescapeEChar u)

/-! ## `fmt`'s `%q` -/

/-- Go's `strconv.IsPrint`: the Latin-1 fast path as in Go; above `U+00FF` Go
consults its Unicode tables, which are the parameter `tbl`. -/
def isPrint (tbl : Nat → Bool) (r : Nat) : Bool :=
  if r ≤ 0xFF then
    if 0x20 ≤ r ∧ r ≤ 0x7E then true
    else if 0xA1 ≤ r then r != 0xAD
    else false
  else tbl r

/-- The digit table `lowerhex` of `strconv`, indexed by a value below 16. -/
def lowerhex (n : Nat) : UInt8 := (ascii "0123456789abcdef").getD n 0

/-- The `\x`, `\u` and `\U` forms of `strconv`: a backslash, the letter, and
`digits` lower-case hex digits of `r`, most significant first. -/
def hexEscape (letter : UInt8) (digits r : Nat) : Str :=
  [0x5C, letter] ++ (List.range digits).reverse.map (fun k => lowerhex (r / 16 ^ k % 16))

/-- Go's `strconv.appendEscapedRune` as `%q` calls it (quote `"`, neither
ASCII-only nor graphic-only), for a rune that `utf8.DecodeRuneInString`
returned, which is a valid code point. -/
def appendEscapedRune (tbl : Nat → Bool) (r : Nat) : Str :=
  if r = 0x22 ∨ r = 0x5C then [0x5C, UInt8.ofNat r]
  else if isPrint tbl r then encodeRune r
  else if r = 0x07 then [0x5C, 0x61]
  else if r = 0x08 then [0x5C, 0x62]
  else if r = 0x0C then [0x5C, 0x66]
  else if r = 0x0A then [0x5C, 0x6E]
  else if r = 0x0D then [0x5C, 0x72]
  else if r = 0x09 then [0x5C, 0x74]
  else if r = 0x0B then [0x5C, 0x76]
  else if r < 0x20 ∨ r = 0x7F then hexEscape 0x78 2 r
  else if r < 0x10000 then hexEscape 0x75 4 r
  else hexEscape 0x55 8 r

/-- The loop of Go's `strconv.appendQuotedWith`: decode one rune (one byte
below `0x80`), write a byte that is not valid UTF-8 as `\x` and two hex
digits and any other rune through `appendEscapedRune`, go on after it.  Each
round consumes at least one byte, so `len(s)` rounds are enough. -/
def quoteLoop (tbl : Nat → Bool) : Nat → Str → Str
  | 0, _ => []
  | k + 1, s =>
    match s with
    | [] => []
    | s0 :: _ =>
      let rw : Nat × Nat := if s0.toNat ≥ 0x80 then decodeRune s else (s0.toNat, 1)
      (if rw.2 = 1 ∧ rw.1 = runeError then hexEscape 0x78 2 s0.toNat
       else appendEscapedRune tbl rw.1) ++ quoteLoop tbl k (s.drop rw.2)

/-- What `fmt` writes for the verb `%q` on a string: `strconv.Quote`. -/
def quote (tbl : Nat → Bool) (s : Str) : Str :=
  [0x22] ++ quoteLoop tbl s.length s ++ [0x22]

/-! ## Terms, triples and graphs -/

/-- A value of `net/url`'s type `URL`, as far as `rdf.go` looks at it: the
text its `String` method returns. -/
structure URL where
  text : Str
  deriving DecidableEq

/-- The type `IRI`: a `*url.URL`, `none` being the nil pointer. -/
structure IRI where
  url : Option URL
  deriving DecidableEq

/-- The method `IRI.String`, `fmt.Sprintf("<%s>", i.url)`; for a nil pointer
`fmt` writes `<nil>`. -/
def IRI.String (i : IRI) : Str :=
  [0x3C] ++ (match i.url with
    | some u => u.text
    | none => ascii "<nil>") ++ [0x3E]

/-- The method `IRI.Equals`. -/
def IRI.Equals (i other : IRI) : Bool := i.String == other.String

/-- The type `BlankNode`. -/
structure BlankNode where
  Id : Int
  Label : Str
  deriving DecidableEq

/-- The method `BlankNode.String`, `fmt.Sprintf("_:%s", b.Label)`. -/
def BlankNode.String (b : BlankNode) : Str := ascii "_:" ++ b.Label

/-- The type `Literal`. -/
structure Literal where
  LexicalForm : Str
  DatatypeIRI : IRI
  LanguageTag : Str
  deriving DecidableEq

/-- The method `Literal.String`: `%q@%s` of the lexical form and the language
tag when the tag is not empty, `%q^^%s` of the lexical form and the datatype
IRI otherwise. -/
def Literal.String (tbl : Nat → Bool) (l : Literal) : Str :=
  if l.LanguageTag ≠ [] then quote tbl l.LexicalForm ++ [0x40] ++ l.LanguageTag
  else quote tbl l.LexicalForm ++ [0x5E, 0x5E] ++ l.DatatypeIRI.String

/-- The method `Literal.Equals`. -/
def Literal.Equals (l other : Literal) : Bool :=
  l.LexicalForm == other.LexicalForm && l.DatatypeIRI.Equals other.DatatypeIRI &&
    l.LanguageTag == other.LanguageTag

/-- Modelled from the spec: the type `RDFTerm` of the fields `Subject` and
`Object` of `Triple` is not declared in `rdf.go`; the spec's "closed sum of
three variants" (IRI, blank node, literal) is taken for it. -/
inductive RDFTerm where
  | iri (i : IRI)
  | blank (b : BlankNode)
  | literal (l : Literal)
  deriving DecidableEq

/-- What `fmt` writes for `%s` on a term: the `String` method of the variant. -/
def RDFTerm.String (tbl : Nat → Bool) : RDFTerm → Str
  | .iri i => i.String
  | .blank b => b.String
  | .literal l => l.String tbl

/-- The type `Triple`. -/
structure Triple where
  Subject : RDFTerm
  Predicate : IRI
  Object : RDFTerm
  deriving DecidableEq

/-- The method `Triple.String`, `fmt.Sprintf("%s %s %s .", ...)`. -/
def Triple.String (tbl : Nat → Bool) (t : Triple) : Str :=
  t.Subject.String tbl ++ [0x20] ++ t.Predicate.String ++ [0x20] ++ t.Object.String tbl ++
    [0x20, 0x2E]

/-- The type `Graph`, a slice of references to triples, none of them nil. -/
abbrev Graph := List Triple

/-- The method `Graph.String`: the loop over `range g` with its index `i`,
starting from the empty string. -/
def Graph.String (tbl : Nat → Bool) (g : Graph) : Str :=
  g.enum.foldl
    (fun str it => (if it.1 > 0 then str ++ [0x0A] else str) ++ it.2.String tbl) []

/-- Splitting a string on LF, as `strings.Split(s, "\n")` does: the pieces
between the LFs, one more than there are LFs. -/
def splitLF : Str → List Str
  | [] => [[]]
  | c :: t =>
    if c = 0x0A then [] :: splitLF t
    else
      match splitLF t with
      | [] => [[c]]
      | piece :: more => (c :: piece) :: more


/-! ## Building an IRI -/

/-- The errors of `net/url`'s `Parse`: the two that the part of `Parse`
embedded here raises, and any other. -/
inductive URLError where
  | invalidControlCharacter
  | missingProtocolScheme
  | other (msg : Str)
  deriving DecidableEq

deriving instance DecidableEq for Except

/-- The loop of `net/url`'s `getScheme` at index `i`, on what is left of
`rawURL`: letters go on; digits, `+`, `-` and `.` go on unless they come
first; a colon ends the scheme (an error when it comes first); any other byte
means there is no scheme. -/
def getSchemeLoop (rawURL : Str) : Nat → Str → Except URLError (Str × Str)
  | _, [] => .ok ([], rawURL)
  | i, c :: cs =>
    if (0x61 ≤ c.toNat ∧ c.toNat ≤ 0x7A) ∨ (0x41 ≤ c.toNat ∧ c.toNat ≤ 0x5A) then
      getSchemeLoop rawURL (i + 1) cs
    else if (0x30 ≤ c.toNat ∧ c.toNat ≤ 0x39) ∨ c = 0x2B ∨ c = 0x2D ∨ c = 0x2E then
      if i = 0 then .ok ([], rawURL) else getSchemeLoop rawURL (i + 1) cs
    else if c = 0x3A then
      if i = 0 then .error .missingProtocolScheme
      else .ok (rawURL.take i, rawURL.drop (i + 1))
    else .ok ([], rawURL)

/-- The function `getScheme` of `net/url`: the scheme and what follows its colon. -/
def getScheme (rawURL : Str) : Except URLError (Str × Str) := getSchemeLoop rawURL 0 rawURL

/-- Go's `strings.ToLower` on a string of ASCII bytes. -/
def toLower (s : Str) : Str :=
  s.map (fun c => if 0x41 ≤ c.toNat ∧ c.toNat ≤ 0x5A then c + 0x20 else c)

/-- The function `stringContainsCTLByte` of `net/url`. -/
def stringContainsCTLByte (s : Str) : Bool := s.any (fun c => c.toNat < 0x20 || c.toNat == 0x7F)

/-- Bytes that `net/url` never escapes in a host (`shouldEscape` is false for
them in the mode `encodeHost`): letters, digits, `.` and `-`. -/
def isPlainHostByte (c : UInt8) : Bool :=
  (0x61 ≤ c.toNat && c.toNat ≤ 0x7A) || (0x41 ≤ c.toNat && c.toNat ≤ 0x5A) ||
    (0x30 ≤ c.toNat && c.toNat ≤ 0x39) || c == 0x2E || c == 0x2D

/-- Bytes that `net/url` never escapes in a path (`shouldEscape` is false for
them in the mode `encodePath`): letters, digits, `/`, `.`, `-`, `_` and `~`. -/
def isPlainPathByte (c : UInt8) : Bool :=
  (0x61 ≤ c.toNat && c.toNat ≤ 0x7A) || (0x41 ≤ c.toNat && c.toNat ≤ 0x5A) ||
    (0x30 ≤ c.toNat && c.toNat ≤ 0x39) || c == 0x2F || c == 0x2E || c == 0x2D ||
    c == 0x5F || c == 0x7E

/-- Go's `url.Parse`, with the URL it returns given by the text of its
`String` method.  Spelled out are two paths through `Parse` of a raw URL
without `#` and `?`, after the check for control bytes, `getScheme` and the
scheme in lower case, both for a scheme that is not empty.  Where the rest
does not start with a slash, `Parse` returns an opaque URL, which `String`
writes as scheme, colon, rest.  Where the rest starts with two slashes, the
authority is what follows them up to the next slash and the path is what is
left; for an authority that is not empty and made of bytes that are never
escaped in a host (so without user, port and brackets), and a path made of
bytes that are never escaped in a path, `Parse` stores both as they are and
`String` writes scheme, `://`, host, path.  Every other path through `Parse`
(fragment, query, other authorities and paths, no scheme) is the parameter
`lib`. -/
def urlParse (lib : Str → Except URLError URL) (rawURL : Str) : Except URLError URL :=
  if 0x23 ∈ rawURL ∨ 0x3F ∈ rawURL then lib rawURL
  else if stringContainsCTLByte rawURL then .error .invalidControlCharacter
  else
    match getScheme rawURL with
    | .error e => .error e
    | .ok (scheme, rest) =>
      if scheme ≠ [] ∧ ¬ hasPrefix rest [0x2F] then .ok ⟨toLower scheme ++ [0x3A] ++ rest⟩
      else if scheme ≠ [] ∧ hasPrefix rest [0x2F, 0x2F] then
        let afterSlashes : Str := rest.drop 2
        let authority : Str :=
          match index afterSlashes [0x2F] with
          | some i => afterSlashes.take i
          | none => afterSlashes
        let path : Str :=
          match index afterSlashes [0x2F] with
          | some i => afterSlashes.drop i
          | none => []
        if authority ≠ [] ∧ authority.all isPlainHostByte ∧ path.all isPlainPathByte then
          .ok ⟨toLower scheme ++ [0x3A, 0x2F, 0x2F] ++ authority ++ path⟩
        else lib rawURL
      else lib rawURL

/-- The function `iriRefToURL`; `parse` is `url.Parse`. -/
def iriRefToURL (parse : Str → Except URLError URL) (s : Str) : Outcome (Except URLError URL) :=
  let stripped : Outcome Str :=
    if hasPrefix s [0x3C] then slice s 1 ((s.length : Int) - 1) else .ok s
  stripped.bind fun s1 => (unescapeUChar s1).bind fun unescaped => .ok (parse unescaped)

/-- The function `newIRIFromString`: the IRI around the pointer that
`iriRefToURL` returned (nil together with an error), and the error. -/
def newIRIFromString (parse : Str → Except URLError URL) (s : Str) :
    Outcome (IRI × Option URLError) :=
  (iriRefToURL parse s).bind fun r =>
    match r with
    | .ok url => .ok (⟨some url⟩, none)
    | .error err => .ok (⟨none⟩, some err)

/-- Modelled from the spec: the interface `Term` declares a method `Equal`,
and `rdf.go` has no such method (and no `Equals`) for `BlankNode`; the spec's
"equal iff ids are equal; labels are NOT compared" is taken for it. -/
def BlankNode.Equal (b other : BlankNode) : Bool := b.Id == other.Id


/-! ## Vocabulary of the properties -/

/-- The hex digit of a value below 16, in upper or in lower case. -/
def hexDigit (upper : Bool) (d : Nat) : UInt8 :=
  (if upper then ascii "0123456789ABCDEF" else ascii "0123456789abcdef").getD d 0

/-- The `w`-hex-digit form of `v`, most significant digit first. -/
def hexForm (upper : Bool) : Nat → Nat → Str
  | 0, _ => []
  | w + 1, v => hexForm upper w (v / 16) ++ [hexDigit upper (v % 16)]

/-- The second bytes of the eight rows of the short-escape table: `t`, `b`,
`n`, `r`, `f`, the double quote, the single quote and the backslash. -/
def shortEscapeLetters : List UInt8 := [0x74, 0x62, 0x6E, 0x72, 0x66, 0x22, 0x27, 0x5C]

/-- The cut of a decoder that takes the introducer that occurs earlier in
`s`, with the hex fields of `unescapeUChar`. -/
def splitEscapeLeftmost (s : Str) : Option (Str × Str × Str) :=
  let cut4 (i : Nat) : Str × Str × Str :=
    if i + 6 > s.length then (s.take i, s.drop (i + 2), [])
    else (s.take i, (s.drop (i + 2)).take 4, s.drop (i + 6))
  let cut8 (i : Nat) : Str × Str × Str :=
    if i + 10 > s.length then (s.take i, s.drop (i + 2), [])
    else (s.take i, (s.drop (i + 2)).take 8, s.drop (i + 10))
  match index s introU4, index s introU8 with
  | some uIdx, some UIdx => if uIdx ≤ UIdx then some (cut4 uIdx) else some (cut8 UIdx)
  | some uIdx, none => some (cut4 uIdx)
  | none, some UIdx => some (cut8 UIdx)
  | none, none => none

/-- The loop of the decoder that always takes the leftmost introducer. -/
def unescapeLeftmostLoop : Nat → Str → Outcome Str
  | 0, _ => .unfinished
  | fuel + 1, s =>
    match splitEscapeLeftmost s with
    | none => .ok s
    | some (start, hex, tail) =>
      match parseInt hex 16 32 with
      | .error e => .panic (.numError e)
      | .ok num => unescapeLeftmostLoop fuel (start ++ runeToString (toRune num) ++ tail)

/-- The decoder that always takes the leftmost introducer. -/
def unescapeLeftmost (s : Str) : Outcome Str := unescapeLeftmostLoop (s.length + 1) s

/-! ## Facts about `strings.Index` -/

/-- Where `sub` does not occur in `s`, `strings.Index` finds nothing. -/
theorem index_none_of_absent (s sub : Str) (h : ¬ sub <:+: s) : index s sub = none := by
  induction s with
  | nil =>
    have h1 : ¬ sub <+: [] := fun hp => h hp.isInfix
    simp [index, List.isPrefixOf_iff_prefix, h1]
  | cons c t ih =>
    have h1 : ¬ sub <+: c :: t := fun hp => h hp.isInfix
    have h2 : ¬ sub <:+: t := fun hi => h (hi.trans (List.suffix_cons c t).isInfix)
    simp [index, List.isPrefixOf_iff_prefix, h1, ih h2]

/-- The index `strings.Index` returns is the place of an occurrence. -/
theorem infix_of_index_some (s sub : Str) (i : Nat) (h : index s sub = some i) :
    s = s.take i ++ sub ++ s.drop (i + sub.length) := by
  induction s generalizing i with
  | nil =>
    simp only [index] at h
    split at h
    · rename_i hp
      rw [List.isPrefixOf_iff_prefix] at hp
      have := List.eq_nil_of_prefix_nil hp
      subst this
      simp
    · simp at h
  | cons c t ih =>
    simp only [index] at h
    split at h
    · rename_i hp
      rw [List.isPrefixOf_iff_prefix] at hp
      obtain ⟨r, hr⟩ := hp
      simp only [Option.some.injEq] at h
      subst h
      simp [← hr]
    · cases hj : index t sub with
      | none => simp [hj] at h
      | some j =>
        simp only [hj, Option.map_some', Option.some.injEq] at h
        subst h
        have := ih j hj
        simp only [List.take_succ_cons, List.cons_append, List.append_assoc]
        rw [show j + 1 + sub.length = (j + sub.length) + 1 by omega, List.drop_succ_cons]
        simpa using this

/-- An occurrence that `strings.Index` found makes `sub` a part of `s`. -/
theorem isInfix_of_index_some (s sub : Str) (i : Nat) (h : index s sub = some i) :
    sub <:+: s :=
  ⟨s.take i, s.drop (i + sub.length), (infix_of_index_some s sub i h).symm⟩

/-- A string without the first byte of `sub` has no occurrence of `sub`. -/
theorem index_none_of_head_not_mem (s : Str) (a : UInt8) (r : Str) (h : a ∉ s) :
    index s (a :: r) = none := by
  apply index_none_of_absent
  rintro ⟨p, q, hpq⟩
  apply h
  rw [← hpq]
  simp

/-! ## Inputs without escapes -/

/-- A replacement of a sequence that does not occur changes nothing. -/
theorem replaceAll_of_absent (s old new : Str) (h : ¬ old <:+: s) :
    replaceAll s old new = s := by
  unfold replaceAll
  cases hn : s.length with
  | zero => rfl
  | succ k => simp [replaceLoop, index_none_of_absent s old h]

/-- The short-escape pass leaves a string alone that holds none of the rows
of its table. -/
theorem unescapeEChar_of_no_row (s : Str) (h : ∀ r ∈ replacements, ¬ r.1 <:+: s) :
    unescapeEChar s = s := by
  simp only [replacements, List.mem_cons, List.mem_singleton, forall_eq_or_imp, forall_eq,
    List.not_mem_nil, false_implies, implies_true, and_true] at h
  obtain ⟨h1, h2, h3, h4, h5, h6, h7, h8⟩ := h
  simp [unescapeEChar, replacements, replaceAll_of_absent, h1, h2, h3, h4, h5, h6, h7, h8]

/-- The rows of the table are the backslash followed by one of the eight letters. -/
theorem row_of_letters (s : Str) (h : ∀ c ∈ shortEscapeLetters, ¬ [0x5C, c] <:+: s) :
    ∀ r ∈ replacements, ¬ r.1 <:+: s := by
  intro r hr
  simp only [replacements, List.mem_cons, List.mem_singleton, List.not_mem_nil, or_false] at hr
  rcases hr with rfl | rfl | rfl | rfl | rfl | rfl | rfl | rfl <;>
    exact h _ (by simp [shortEscapeLetters])

/-- C7: a string that contains none of the eight two-byte sequences of the
short-escape table (a backslash followed by `t`, `b`, `n`, `r`, `f`, a double
quote, a single quote or a backslash) is returned unchanged by `unescapeEChar`. -/
theorem unescapeEChar_unchanged (s : Str)
    (h : ∀ c ∈ [0x74, 0x62, 0x6E, 0x72, 0x66, 0x22, 0x27, (0x5C : UInt8)], ¬ [0x5C, c] <:+: s) :
    unescapeEChar s = s :=
  unescapeEChar_of_no_row s (row_of_letters s h)

/-- The witness of C7: the string `a\xb` holds a backslash but no row of the table. -/
theorem unescapeEChar_unchanged_witness :
    unescapeEChar [0x61, 0x5C, 0x78, 0x62] = [0x61, 0x5C, 0x78, 0x62] :=
  unescapeEChar_unchanged [0x61, 0x5C, 0x78, 0x62] (by decide)

/-- Without an introducer the loop of `unescapeUChar` is left at once. -/
theorem splitEscape_none (s : Str) (h4 : ¬ introU4 <:+: s) (h8 : ¬ introU8 <:+: s) :
    splitEscape s = none := by
  simp [splitEscape, index_none_of_absent s _ h4, index_none_of_absent s _ h8]

/-- C6: a string that contains neither backslash-`u` nor backslash-`U` is
returned unchanged by `unescapeUChar`, which does not fail on it. -/
theorem unescapeUChar_unchanged (s : Str)
    (h4 : ¬ [0x5C, 0x75] <:+: s) (h8 : ¬ [0x5C, 0x55] <:+: s) :
    unescapeUChar s = .ok s := by
  simp [unescapeUChar, unescapeUCharLoop, splitEscape_none s h4 h8]

/-- The witness of C6: the string `a\nb` holds a backslash but no introducer. -/
theorem unescapeUChar_unchanged_witness :
    unescapeUChar [0x61, 0x5C, 0x6E, 0x62] = .ok [0x61, 0x5C, 0x6E, 0x62] :=
  unescapeUChar_unchanged [0x61, 0x5C, 0x6E, 0x62] (by decide) (by decide)

/-! ## `strconv.ParseInt` on hex forms -/

/-- Go reads a hex digit of either case as its value. -/
theorem digitVal_hexDigit (upper : Bool) (d : Nat) (h : d < 16) :
    digitVal (hexDigit upper d) = some d := by
  cases upper <;> interval_cases d <;> decide

/-- A hex digit is neither a sign nor a backslash. -/
theorem hexDigit_plain (upper : Bool) (d : Nat) (h : d < 16) :
    hexDigit upper d ≠ 0x2B ∧ hexDigit upper d ≠ 0x2D ∧ hexDigit upper d ≠ 0x5C := by
  cases upper <;> interval_cases d <;> decide

/-- Every byte of a hex form is a hex digit. -/
theorem mem_hexForm (upper : Bool) (w v : Nat) (b : UInt8) (h : b ∈ hexForm upper w v) :
    ∃ d, d < 16 ∧ b = hexDigit upper d := by
  induction w generalizing v with
  | zero => simp [hexForm] at h
  | succ w ih =>
    simp only [hexForm, List.mem_append, List.mem_singleton] at h
    rcases h with h | h
    · exact ih _ h
    · exact ⟨v % 16, Nat.mod_lt _ (by norm_num), h⟩

/-- A hex form of width `w` has `w` bytes. -/
theorem length_hexForm (upper : Bool) (w v : Nat) : (hexForm upper w v).length = w := by
  induction w generalizing v with
  | zero => rfl
  | succ w ih => simp [hexForm, ih]

/-- The digit loop on a string with one more byte at its end. -/
theorem parseUintLoop_snoc (base maxVal cutoff : Nat) (l : Str) (c : UInt8) (n m : Nat)
    (h : parseUintLoop base maxVal cutoff l n = (m, none)) :
    parseUintLoop base maxVal cutoff (l ++ [c]) n = parseUintLoop base maxVal cutoff [c] m := by
  induction l generalizing n with
  | nil =>
    simp only [parseUintLoop, Prod.mk.injEq, and_true] at h
    subst h
    rfl
  | cons a l ih =>
    simp only [List.cons_append, parseUintLoop] at h ⊢
    split at h
    · simp at h
    · split_ifs at h with h1 h2 h3
      · simp at h
      · simp at h
      · simp at h
      · simp only [h1, h2, h3, if_false]
        exact ih _ h

/-- The digit loop of `ParseUint` reads the `w`-digit hex form of `v` as `v`. -/
theorem parseUintLoop_hexForm (upper : Bool) (w v : Nat) (hw : v < 16 ^ w) (hv : v < 2 ^ 32) :
    parseUintLoop 16 (2 ^ 32 - 1) ((2 ^ 64 - 1) / 16 + 1) (hexForm upper w v) 0 = (v, none) := by
  induction w generalizing v with
  | zero =>
    simp only [pow_zero, Nat.lt_one_iff] at hw
    subst hw
    rfl
  | succ w ih =>
    have h1 : v / 16 < 16 ^ w := by
      rw [Nat.div_lt_iff_lt_mul (by norm_num)]
      rw [pow_succ] at hw
      exact hw
    have h2 : v / 16 < 2 ^ 32 := lt_of_le_of_lt (Nat.div_le_self _ _) hv
    rw [hexForm, parseUintLoop_snoc _ _ _ _ _ _ _ (ih _ h1 h2)]
    have hd : v % 16 < 16 := Nat.mod_lt _ (by norm_num)
    simp only [parseUintLoop, digitVal_hexDigit upper _ hd]
    have e : v / 16 * 16 + v % 16 = v := Nat.div_add_mod' v 16
    rw [e]
    norm_num at hv ⊢
    rw [if_neg (by omega), if_neg (by omega), if_neg (by omega)]

/-- The function `ParseInt(hex, 16, 32)` reads the `w`-digit hex form of a
value below `2^31` as that value. -/
theorem parseInt_hexForm (upper : Bool) (w v : Nat) (hw1 : 1 ≤ w) (hw : v < 16 ^ w)
    (hv : v < 2 ^ 31) : parseInt (hexForm upper w v) 16 32 = .ok (v : Int) := by
  have hlen := length_hexForm upper w v
  have hloop := parseUintLoop_hexForm upper w v hw (by omega)
  cases hs : hexForm upper w v with
  | nil => rw [hs] at hlen; simp at hlen; omega
  | cons c rest =>
    have hc : c ∈ hexForm upper w v := by rw [hs]; simp
    obtain ⟨d, hd, rfl⟩ := mem_hexForm upper w v c hc
    obtain ⟨n1, n2, -⟩ := hexDigit_plain upper d hd
    rw [hs] at hloop
    simp only [parseInt, beq_iff_eq, n1, n2, if_false, parseUint, reduceCtorEq, hloop]
    norm_num at hv ⊢
    simp only [n2, false_and, if_false, not_false_eq_true, true_and]
    rw [if_neg (by omega)]

/-! ## What the rune conversion writes -/

/-- Two bytes with different values are different. -/
theorem ofNat_ne_of_mod_ne (n c : Nat) (h : n % 256 ≠ c % 256) : UInt8.ofNat n ≠ UInt8.ofNat c := by
  intro e
  apply h
  have := congrArg UInt8.toNat e
  exact this

/-- An encoded rune is a single byte, or holds no backslash at all. -/
theorem encodeRune_single_or_high (r : Nat) :
    (∃ b, encodeRune r = [b]) ∨ (0x5C : UInt8) ∉ encodeRune r := by
  unfold encodeRune
  split_ifs with h1 h2 h3 h4
  · exact Or.inl ⟨_, rfl⟩
  · right
    simp only [List.mem_cons, List.mem_singleton, List.not_mem_nil, or_false, not_or]
    exact ⟨(ofNat_ne_of_mod_ne _ 0x5C (by omega)).symm, (ofNat_ne_of_mod_ne _ 0x5C (by omega)).symm⟩
  · right; decide
  · right
    simp only [List.mem_cons, List.mem_singleton, List.not_mem_nil, or_false, not_or]
    exact ⟨(ofNat_ne_of_mod_ne _ 0x5C (by omega)).symm, (ofNat_ne_of_mod_ne _ 0x5C (by omega)).symm,
      (ofNat_ne_of_mod_ne _ 0x5C (by omega)).symm⟩
  · right
    simp only [List.mem_cons, List.mem_singleton, List.not_mem_nil, or_false, not_or]
    exact ⟨(ofNat_ne_of_mod_ne _ 0x5C (by omega)).symm, (ofNat_ne_of_mod_ne _ 0x5C (by omega)).symm,
      (ofNat_ne_of_mod_ne _ 0x5C (by omega)).symm, (ofNat_ne_of_mod_ne _ 0x5C (by omega)).symm⟩

/-- An encoded rune has between one and four bytes. -/
theorem length_encodeRune (r : Nat) : 1 ≤ (encodeRune r).length ∧ (encodeRune r).length ≤ 4 := by
  unfold encodeRune
  split_ifs <;> simp

/-- An encoded rune holds no introducer: the loop of `unescapeUChar` stops on it. -/
theorem splitEscape_encodeRune (r : Nat) : splitEscape (encodeRune r) = none := by
  have key : ∀ x : UInt8, index (encodeRune r) [0x5C, x] = none := by
    intro x
    rcases encodeRune_single_or_high r with ⟨b, hb⟩ | h
    · rw [hb]
      simp [index, List.isPrefixOf]
    · exact index_none_of_head_not_mem _ _ _ h
  simp [splitEscape, introU4, introU8, key]

/-- The conversion to a rune keeps a value of the `int32` range. -/
theorem toRune_of_range (n : Int) (h1 : -(2 ^ 31) ≤ n) (h2 : n < 2 ^ 31) : toRune n = n := by
  unfold toRune
  norm_num at h1 h2 ⊢
  omega

/-- The string of a non-negative rune is its encoding. -/
theorem runeToString_natCast (v : Nat) : runeToString (v : Int) = encodeRune v := by
  simp [runeToString]

/-- The decoder of Go reads the encoding of a valid scalar value back as that
value, and the encoding is all it reads. -/
theorem decodeRune_encodeRune (v : Nat) (hv : v ≤ 0x10FFFF) (hs : ¬ (0xD800 ≤ v ∧ v ≤ 0xDFFF)) :
    decodeRune (encodeRune v) = (v, (encodeRune v).length) := by
  have t : ∀ n : Nat, (UInt8.ofNat n).toNat = n % 256 := fun _ => rfl
  unfold encodeRune
  split_ifs with h1 h2 h3 h4
  · simp only [decodeRune, t, List.length_singleton]
    rw [if_pos (by omega)]
    simp only [Prod.mk.injEq, and_true]
    omega
  · simp only [decodeRune, t, List.length_cons, List.length_nil]
    rw [if_neg (by omega), if_neg (by omega)]
    simp only [show (0xC0 + v / 64) % 256 < 0xE0 by omega, if_true,
      show ¬ (0xC0 + v / 64) % 256 = 0xE0 by omega, show ¬ (0xC0 + v / 64) % 256 = 0xF0 by omega,
      show ¬ (0xC0 + v / 64) % 256 = 0xED by omega, show ¬ (0xC0 + v / 64) % 256 = 0xF4 by omega,
      if_false]
    rw [if_neg (by omega), if_neg (by omega)]
    simp only [le_refl, if_true, Prod.mk.injEq, and_true]
    omega
  · exfalso; omega
  · have e0 : (0xE0 + v / 4096) % 256 = 0xE0 + v / 4096 := by omega
    have f1 : ¬ 0xE0 + v / 4096 < 0xE0 := by omega
    have f2 : 0xE0 + v / 4096 < 0xF0 := by omega
    have f3 : ¬ 0xE0 + v / 4096 = 0xF0 := by omega
    have f4 : ¬ 0xE0 + v / 4096 = 0xF4 := by omega
    simp only [decodeRune, t, e0, f1, f2, f3, f4, if_true, if_false, List.length_cons,
      List.length_nil]
    norm_num
    split_ifs <;> first | omega | (simp only [Prod.mk.injEq, and_true]; omega)
  · have e0 : (0xF0 + v / 262144) % 256 = 0xF0 + v / 262144 := by omega
    have f1 : ¬ 0xF0 + v / 262144 < 0xE0 := by omega
    have f2 : ¬ 0xF0 + v / 262144 < 0xF0 := by omega
    have f3 : ¬ 0xF0 + v / 262144 = 0xE0 := by omega
    have f4 : ¬ 0xF0 + v / 262144 = 0xED := by omega
    simp only [decodeRune, t, e0, f1, f2, f3, f4, if_true, if_false, List.length_cons,
      List.length_nil]
    norm_num
    split_ifs <;> first | omega | (simp only [Prod.mk.injEq, and_true]; omega)

/-! ## One escape and nothing else -/

/-- A backslash-`u` at the start with at most four bytes after it: the bytes
after it are the hex field. -/
theorem splitEscape_u4 (h : Str) (hl : h.length ≤ 4) :
    splitEscape ([0x5C, 0x75] ++ h) = some ([], h, []) := by
  simp only [splitEscape, introU4, index, List.cons_append, List.nil_append, List.isPrefixOf,
    beq_self_eq_true, Bool.and_self, if_true, List.length_cons, List.take_zero]
  split_ifs with hc
  · simp
  · have h4 : h.length = 4 := by omega
    simp [List.take_of_length_le (le_of_eq h4), List.drop_eq_nil_of_le (le_of_eq h4)]

/-- A backslash-`U` at the start with at most eight bytes after it, none of
them a backslash: the bytes after it are the hex field. -/
theorem splitEscape_u8 (h : Str) (hl : h.length ≤ 8) (hb : (0x5C : UInt8) ∉ h) :
    splitEscape ([0x5C, 0x55] ++ h) = some ([], h, []) := by
  have hn : index ([0x5C, 0x55] ++ h) introU4 = none := by
    have : index h [0x5C, 0x75] = none := index_none_of_head_not_mem _ _ _ hb
    simp [index, introU4, List.isPrefixOf, this]
  simp only [splitEscape, hn]
  simp only [introU8, index, List.cons_append, List.nil_append, List.isPrefixOf,
    beq_self_eq_true, Bool.and_self, if_true, List.length_cons, List.take_zero]
  split_ifs with hc
  · simp
  · have h8 : h.length = 8 := by omega
    simp [List.take_of_length_le (le_of_eq h8), List.drop_eq_nil_of_le (le_of_eq h8)]

/-- A hex form holds no backslash. -/
theorem backslash_not_mem_hexForm (upper : Bool) (w v : Nat) :
    (0x5C : UInt8) ∉ hexForm upper w v := by
  intro hm
  obtain ⟨d, hd, e⟩ := mem_hexForm upper w v _ hm
  exact (hexDigit_plain upper d hd).2.2 e.symm

/-- Two rounds of the loop on a string that is one escape: the escape is
replaced, and the loop is left on the encoded rune. -/
theorem unescapeUChar_of_split (s hex : Str) (v : Nat) (hsplit : splitEscape s = some ([], hex, []))
    (hparse : parseInt hex 16 32 = .ok (v : Int)) (hv : v < 2 ^ 31) (hlen : 1 ≤ s.length) :
    unescapeUChar s = .ok (encodeRune v) := by
  obtain ⟨n, hn⟩ : ∃ n, s.length + 1 = n + 2 := ⟨s.length - 1, by omega⟩
  have hr : toRune (v : Int) = (v : Int) :=
    toRune_of_range _ (by norm_num; omega) (by exact_mod_cast hv)
  rw [unescapeUChar, hn, unescapeUCharLoop]
  simp only [hsplit, hparse, hr, runeToString_natCast, List.nil_append, List.append_nil]
  rw [unescapeUCharLoop]
  simp only [splitEscape_encodeRune]

/-- A string that is backslash-`u` and one to four hex digits decodes to the
rune of their value. -/
theorem unescapeUChar_u4_hexForm (upper : Bool) (k v : Nat) (hk : 1 ≤ k) (hk4 : k ≤ 4)
    (hv : v < 16 ^ k) : unescapeUChar ([0x5C, 0x75] ++ hexForm upper k v) = .ok (encodeRune v) := by
  have hv31 : v < 2 ^ 31 := by
    have : (16 : Nat) ^ k ≤ 16 ^ 4 := Nat.pow_le_pow_right (by norm_num) hk4
    norm_num at this ⊢
    omega
  exact unescapeUChar_of_split _ _ v
    (splitEscape_u4 _ (by rw [length_hexForm]; exact hk4))
    (parseInt_hexForm upper k v hk hv hv31) hv31 (by simp)

/-- A string that is backslash-`U` and one to eight hex digits of a value
below `2^31` decodes to the rune of that value. -/
theorem unescapeUChar_u8_hexForm (upper : Bool) (k v : Nat) (hk : 1 ≤ k) (hk8 : k ≤ 8)
    (hv : v < 16 ^ k) (hv31 : v < 2 ^ 31) :
    unescapeUChar ([0x5C, 0x55] ++ hexForm upper k v) = .ok (encodeRune v) :=
  unescapeUChar_of_split _ _ v
    (splitEscape_u8 _ (by rw [length_hexForm]; exact hk8) (backslash_not_mem_hexForm upper k v))
    (parseInt_hexForm upper k v hk hv hv31) hv31 (by simp)

/-- C1: for every valid Unicode scalar value `v` (at most `0x10FFFF`, no
surrogate), `unescapeUChar` applied to backslash-`U` and the eight-hex-digit
form of `v` (in either case of the letters) returns the UTF-8 encoding of
`v`, a non-empty string that Go decodes as the one code point `v` over its
whole length; and for `v ≤ 0xFFFF` backslash-`u` and the four-hex-digit form
of `v` returns the same string. -/
theorem unescapeUChar_scalar (upper : Bool) (v : Nat) (hv : v ≤ 0x10FFFF)
    (hs : ¬ (0xD800 ≤ v ∧ v ≤ 0xDFFF)) :
    ∃ r : Str,
      unescapeUChar ([0x5C, 0x55] ++ hexForm upper 8 v) = .ok r ∧
      r ≠ [] ∧ decodeRune r = (v, r.length) ∧
      (v ≤ 0xFFFF → unescapeUChar ([0x5C, 0x75] ++ hexForm upper 4 v) = .ok r) := by
  refine ⟨encodeRune v, ?_, ?_, decodeRune_encodeRune v hv hs, ?_⟩
  · exact unescapeUChar_u8_hexForm upper 8 v (by norm_num) (by norm_num) (by norm_num; omega)
      (by norm_num; omega)
  · intro h
    have := (length_encodeRune v).1
    rw [h] at this
    simp at this
  · intro h16
    exact unescapeUChar_u4_hexForm upper 4 v (by norm_num) (by norm_num) (by norm_num; omega)

/-- The witness of C1: the euro sign `U+20AC`, written with upper-case digits. -/
theorem unescapeUChar_scalar_witness :
    ∃ r : Str,
      unescapeUChar ([0x5C, 0x55] ++ hexForm true 8 0x20AC) = .ok r ∧
      r ≠ [] ∧ decodeRune r = (0x20AC, r.length) ∧
      (0x20AC ≤ 0xFFFF → unescapeUChar ([0x5C, 0x75] ++ hexForm true 4 0x20AC) = .ok r) :=
  unescapeUChar_scalar true 0x20AC (by decide) (by decide)

/-! ## Escapes at the end of the input -/

/-- Where `sub` occurs in `s`, `strings.Index` finds an occurrence. -/
theorem index_some_of_present (s sub : Str) (h : sub <:+: s) : ∃ i, index s sub = some i := by
  induction s with
  | nil =>
    have e : sub = [] := List.eq_nil_of_infix_nil h
    subst e
    exact ⟨0, by simp [index, List.isPrefixOf]⟩
  | cons c t ih =>
    by_cases hp : sub <+: c :: t
    · exact ⟨0, by simp [index, List.isPrefixOf_iff_prefix, hp]⟩
    · have hi : sub <:+: t := by
        rcases List.infix_cons_iff.mp h with h1 | h1
        · exact absurd h1 hp
        · exact h1
      obtain ⟨j, hj⟩ := ih hi
      exact ⟨j + 1, by simp [index, List.isPrefixOf_iff_prefix, hp, hj]⟩

/-- The digit loop of `ParseUint` reports a range error with the value `maxVal`. -/
theorem parseUintLoop_err (base maxVal cutoff : Nat) (l : Str) (n un : Nat) (e : NumError)
    (h : parseUintLoop base maxVal cutoff l n = (un, some e)) :
    e = .ErrSyntax ∨ un = maxVal := by
  induction l generalizing n with
  | nil => simp [parseUintLoop] at h
  | cons c cs ih =>
    simp only [parseUintLoop] at h
    split at h
    · simp only [Prod.mk.injEq, Option.some.injEq] at h
      exact Or.inl h.2.symm
    · split_ifs at h
      · simp only [Prod.mk.injEq, Option.some.injEq] at h
        exact Or.inl h.2.symm
      · simp only [Prod.mk.injEq] at h
        exact Or.inr h.1.symm
      · simp only [Prod.mk.injEq] at h
        exact Or.inr h.1.symm
      · exact ih _ h

/-- Where the digit loop of `ParseUint` ends without an error, every byte it
read is a digit of the base. -/
theorem parseUintLoop_ok_digits (base maxVal cutoff : Nat) (l : Str) (n un : Nat)
    (h : parseUintLoop base maxVal cutoff l n = (un, none)) :
    ∀ b ∈ l, ∃ d, digitVal b = some d ∧ d < base := by
  induction l generalizing n with
  | nil => simp
  | cons c cs ih =>
    simp only [parseUintLoop] at h
    split at h
    · simp at h
    · rename_i d hd
      split_ifs at h with h1 h2 h3
      · simp at h
      · simp at h
      · simp at h
      · intro b hb
        rcases List.mem_cons.mp hb with rfl | hb
        · exact ⟨d, hd, by omega⟩
        · exact ih _ h b hb

/-- Where `ParseInt(hex, 16, 32)` succeeds, every byte of `hex` is a sign or
a hex digit. -/
theorem parseInt_ok_bytes (hex : Str) (num : Int) (h : parseInt hex 16 32 = .ok num) :
    ∀ b ∈ hex, b = 0x2B ∨ b = 0x2D ∨ ∃ d, digitVal b = some d ∧ d < 16 := by
  cases hex with
  | nil => simp [parseInt] at h
  | cons c rest =>
    simp only [parseInt] at h
    split at h
    · simp at h
    · rename_i un err hne hpu
      obtain ⟨body, hbody, hpu⟩ : ∃ body : Str, (∀ b ∈ c :: rest, b = 0x2B ∨ b = 0x2D ∨ b ∈ body) ∧
          parseUint body 16 32 = (un, err) := by
        refine ⟨_, ?_, hpu⟩
        intro b hb
        by_cases c1 : c = 0x2B
        · subst c1
          rcases List.mem_cons.mp hb with rfl | hr
          · exact Or.inl rfl
          · exact Or.inr (Or.inr (by simpa using hr))
        · by_cases c2 : c = 0x2D
          · subst c2
            rcases List.mem_cons.mp hb with rfl | hr
            · exact Or.inr (Or.inl rfl)
            · exact Or.inr (Or.inr (by simpa using hr))
          · exact Or.inr (Or.inr (by simpa [c1, c2] using hb))
      have hnone : err = none := by
        cases err with
        | none => rfl
        | some e =>
          exfalso
          simp only [parseUint] at hpu
          split_ifs at hpu with hb
          · simp only [Prod.mk.injEq, Option.some.injEq] at hpu
            exact hne (by rw [← hpu.2])
          · rcases parseUintLoop_err _ _ _ _ _ _ _ hpu with he | hm
            · exact hne (by rw [he])
            · subst hm
              norm_num at h
              by_cases hc : c = 45 <;> simp [hc] at h
      subst hnone
      simp only [parseUint] at hpu
      split_ifs at hpu with hb
      · simp at hpu
      have hd := parseUintLoop_ok_digits _ _ _ _ _ _ hpu
      intro b hb'
      rcases hbody b hb' with e | e | e
      · exact Or.inl e
      · exact Or.inr (Or.inl e)
      · exact Or.inr (Or.inr (hd b e))

/-- A hex field that `ParseInt` accepts holds no backslash, no `u` and no `U`. -/
theorem parseInt_ok_not_mem (hex : Str) (num : Int) (h : parseInt hex 16 32 = .ok num)
    (x : UInt8) (hx : x = 0x5C ∨ x = 0x75 ∨ x = 0x55) : x ∉ hex := by
  intro hm
  rcases parseInt_ok_bytes hex num h x hm with e | e | ⟨d, hd, hlt⟩
  · rcases hx with rfl | rfl | rfl <;> exact absurd e (by decide)
  · rcases hx with rfl | rfl | rfl <;> exact absurd e (by decide)
  · rcases hx with rfl | rfl | rfl
    · have : digitVal 0x5C = none := by decide
      rw [this] at hd
      simp at hd
    · have : digitVal 0x75 = some 30 := by decide
      rw [this] at hd
      simp only [Option.some.injEq] at hd
      omega
    · have : digitVal 0x55 = some 30 := by decide
      rw [this] at hd
      simp only [Option.some.injEq] at hd
      omega

/-- The two branches of each introducer cut the same way: after the
introducer at `i` the hex field is the next `m` bytes, or what is left of the
string, and the rest follows it (`m` is 4 for `u` and 8 for `U`). -/
theorem splitEscape_some (s start hex tail : Str) (h : splitEscape s = some (start, hex, tail)) :
    ∃ (i m : Nat) (x : UInt8), 4 ≤ m ∧ index s [0x5C, x] = some i ∧ start = s.take i ∧
      hex = (s.drop (i + 2)).take m ∧ tail = s.drop (i + 2 + m) := by
  simp only [splitEscape, introU4, introU8] at h
  split at h
  · rename_i i hi
    refine ⟨i, 4, 0x75, le_refl _, hi, ?_⟩
    split_ifs at h with hc
    · simp only [Option.some.injEq, Prod.mk.injEq] at h
      obtain ⟨rfl, rfl, rfl⟩ := h
      refine ⟨rfl, ?_, ?_⟩
      · rw [List.take_of_length_le (by simp; omega)]
      · rw [List.drop_eq_nil_of_le (by omega)]
    · simp only [Option.some.injEq, Prod.mk.injEq] at h
      obtain ⟨rfl, rfl, rfl⟩ := h
      exact ⟨rfl, rfl, rfl⟩
  · rename_i i _ hi
    refine ⟨i, 8, 0x55, by norm_num, hi, ?_⟩
    split_ifs at h with hc
    · simp only [Option.some.injEq, Prod.mk.injEq] at h
      obtain ⟨rfl, rfl, rfl⟩ := h
      refine ⟨rfl, ?_, ?_⟩
      · rw [List.take_of_length_le (by simp; omega)]
      · rw [List.drop_eq_nil_of_le (by omega)]
    · simp only [Option.some.injEq, Prod.mk.injEq] at h
      obtain ⟨rfl, rfl, rfl⟩ := h
      exact ⟨rfl, rfl, rfl⟩
  · simp at h

/-- The string is put together again from the three pieces and the introducer. -/
theorem splitEscape_join (s start hex tail : Str) (h : splitEscape s = some (start, hex, tail)) :
    ∃ x : UInt8, s = start ++ [0x5C, x] ++ (hex ++ tail) ∧ (tail ≠ [] → 4 ≤ hex.length) := by
  obtain ⟨i, m, x, hm, hi, rfl, rfl, rfl⟩ := splitEscape_some s start hex tail h
  refine ⟨x, ?_, ?_⟩
  · have := infix_of_index_some s _ i hi
    have e : s.drop (i + 2 + m) = (s.drop (i + 2)).drop m := by
      rw [List.drop_drop]
    rw [e, List.take_append_drop]
    simpa using this
  · intro hne
    have hlen : i + 2 + m < s.length := by
      by_contra hc
      exact hne (List.drop_eq_nil_of_le (by omega))
    simp only [List.length_take, List.length_drop]
    omega

/-- Where the loop goes on, one of the introducers occurs in the string. -/
theorem splitEscape_ne_none (s : Str) (x : UInt8) (hx : x = 0x75 ∨ x = 0x55)
    (h : [0x5C, x] <:+: s) : splitEscape s ≠ none := by
  obtain ⟨i, hi⟩ := index_some_of_present s _ h
  rcases hx with rfl | rfl
  · simp only [splitEscape, introU4, hi]
    split_ifs <;> simp
  · cases hu : index s [0x5C, 0x75] with
    | none =>
      simp only [splitEscape, introU4, introU8, hu, hi]
      split_ifs <;> simp
    | some j =>
      simp only [splitEscape, introU4, introU8, hu, hi]
      split_ifs <;> simp

/-- A two-byte suffix of a string whose bytes are not in the hex field lies
behind the hex field. -/
theorem suffix_of_not_mem_hex (a hex tail : Str) (y x : UInt8) (hsuf : [y, x] <:+ a ++ (hex ++ tail))
    (hne : hex ≠ []) (hy : y ∉ hex) (hx : x ∉ hex) : [y, x] <:+ tail := by
  obtain ⟨front, last, rfl⟩ : ∃ front last, hex = front ++ [last] := by
    rcases List.eq_nil_or_concat hex with e | ⟨f, l, e⟩
    · exact absurd e hne
    · exact ⟨f, l, by simpa using e⟩
  simp only [List.mem_append, List.mem_singleton, not_or] at hy hx
  match tail, hsuf with
  | [], hsuf =>
    exfalso
    obtain ⟨p, hp⟩ := hsuf
    have e : (p ++ [y]) ++ [x] = (a ++ front) ++ [last] := by simpa using hp
    have := (List.append_inj' e rfl).2
    simp only [List.cons.injEq, and_true] at this
    exact hx.2 this
  | [t], hsuf =>
    exfalso
    obtain ⟨p, hp⟩ := hsuf
    have e : (p ++ [y]) ++ [x] = (a ++ front ++ [last]) ++ [t] := by simpa using hp
    have e1 := (List.append_inj' e rfl).1
    have := (List.append_inj' e1 rfl).2
    simp only [List.cons.injEq, and_true] at this
    exact hy.2 this
  | t1 :: t2 :: r, hsuf =>
    refine List.suffix_of_suffix_length_le hsuf ?_ (by simp)
    rw [← List.append_assoc]
    exact List.suffix_append _ _

/-- An input that ends with an introducer makes the loop of `unescapeUChar`
panic with the error of `ParseInt`, whatever stands before the introducer. -/
theorem unescapeUCharLoop_suffix_intro (x : UInt8) (hx : x = 0x75 ∨ x = 0x55) :
    ∀ (fuel : Nat) (s : Str), s.length < fuel → [0x5C, x] <:+ s →
      ∃ e, unescapeUCharLoop fuel s = .panic (.numError e) := by
  intro fuel
  induction fuel with
  | zero => intro s hl; omega
  | succ k ih =>
    intro s hl hsuf
    rw [unescapeUCharLoop]
    cases hsp : splitEscape s with
    | none => exact absurd hsp (splitEscape_ne_none s x hx hsuf.isInfix)
    | some triple =>
      obtain ⟨start, hex, tail⟩ := triple
      dsimp only
      cases hp : parseInt hex 16 32 with
      | error e => exact ⟨e, rfl⟩
      | ok num =>
        dsimp only
        obtain ⟨x1, hjoin, hlen4⟩ := splitEscape_join s start hex tail hsp
        have hne : hex ≠ [] := by
          rintro rfl
          simp [parseInt] at hp
        have hb : (0x5C : UInt8) ∉ hex := parseInt_ok_not_mem hex num hp _ (Or.inl rfl)
        have hxm : x ∉ hex :=
          parseInt_ok_not_mem hex num hp _ (by rcases hx with rfl | rfl <;> simp)
        have hs2 : [0x5C, x] <:+ (start ++ [0x5C, x1]) ++ (hex ++ tail) := by
          rw [← hjoin]; exact hsuf
        have htail : [0x5C, x] <:+ tail := suffix_of_not_mem_hex _ hex tail _ _ hs2 hne hb hxm
        have htne : tail ≠ [] := by
          rintro rfl
          have := htail.length_le
          simp at this
        have h4 := hlen4 htne
        have hrl : (runeToString (toRune num)).length ≤ 4 := by
          unfold runeToString
          split_ifs <;> exact (length_encodeRune _).2
        apply ih
        · have : s.length = start.length + 2 + (hex.length + tail.length) := by
            rw [hjoin]; simp; omega
          simp only [List.length_append]
          omega
        · exact htail.trans (List.suffix_append _ _)

/-! ## The loop of `unescapeUChar` is left -/

/-- The digit loop of `ParseUint`, base 16: a value read from `l` after the
accumulator `n` is below `(n + 1) * 16 ^ len(l)`. -/
theorem parseUintLoop_value_lt (maxVal cutoff : Nat) (l : Str) (n un : Nat)
    (h : parseUintLoop 16 maxVal cutoff l n = (un, none)) : un < (n + 1) * 16 ^ l.length := by
  induction l generalizing n with
  | nil =>
    simp only [parseUintLoop, Prod.mk.injEq, and_true] at h
    subst h
    simp
  | cons c cs ih =>
    simp only [parseUintLoop] at h
    split at h
    · simp at h
    · rename_i d hd
      split_ifs at h with h1 h2 h3
      · simp at h
      · simp at h
      · simp at h
      · have := ih _ h
        have hle : (n * 16 + d + 1) * 16 ^ cs.length ≤ (n + 1) * 16 * 16 ^ cs.length :=
          Nat.mul_le_mul_right _ (by omega)
        calc un < (n * 16 + d + 1) * 16 ^ cs.length := this
          _ ≤ (n + 1) * 16 * 16 ^ cs.length := hle
          _ = (n + 1) * 16 ^ (c :: cs).length := by
            rw [List.length_cons, pow_succ]; ring

/-- What a successful `ParseInt(hex, 16, 32)` has done: dropped a sign if
there is one, read the rest, which is not empty, as `un`, and returned `un` or
`-un` within the range of `int32`. -/
theorem parseInt_ok_inv (c : UInt8) (rest : Str) (num : Int)
    (h : parseInt (c :: rest) 16 32 = .ok num) :
    ∃ (un : Nat) (body : Str),
      parseUintLoop 16 (2 ^ 32 - 1) ((2 ^ 64 - 1) / 16 + 1) body 0 = (un, none) ∧ body ≠ [] ∧
      ((c = 0x2B ∧ body = rest ∧ num = (un : Int) ∧ un < 2 ^ 31) ∨
       (c = 0x2D ∧ body = rest ∧ num = -(un : Int) ∧ un ≤ 2 ^ 31) ∨
       (c ≠ 0x2B ∧ c ≠ 0x2D ∧ body = c :: rest ∧ num = (un : Int) ∧ un < 2 ^ 31)) := by
  simp only [parseInt] at h
  split at h
  · simp at h
  · rename_i un err hne hpu
    have hnone : err = none := by
      cases err with
      | none => rfl
      | some e =>
        exfalso
        simp only [parseUint] at hpu
        split_ifs at hpu
        all_goals first
          | (simp only [Prod.mk.injEq, Option.some.injEq] at hpu
             exact hne (by rw [← hpu.2]))
          | (rcases parseUintLoop_err _ _ _ _ _ _ _ hpu with he | hm
             · exact hne (by rw [he])
             · subst hm
               norm_num at h
               by_cases hc : c = 45 <;> simp [hc] at h)
    subst hnone
    by_cases c1 : c = 0x2B
    · subst c1
      have e1 : ((0x2B : UInt8) == 0x2B) = true := by decide
      have e2 : ((0x2B : UInt8) == 0x2D) = false := by decide
      simp only [e1, e2, if_true, parseUint, Bool.not_false, Bool.true_and, Bool.false_and,
        Bool.false_eq_true, if_false, decide_eq_true_eq] at hpu h
      split_ifs at hpu with hb
      · simp at hpu
      · split_ifs at h with hr
        simp only [Except.ok.injEq] at h
        exact ⟨un, rest, hpu, hb, Or.inl ⟨rfl, rfl, h.symm, by norm_num at hr ⊢; omega⟩⟩
    · by_cases c2 : c = 0x2D
      · subst c2
        have e1 : ((0x2D : UInt8) == 0x2B) = false := by decide
        have e2 : ((0x2D : UInt8) == 0x2D) = true := by decide
        simp only [e1, e2, if_true, parseUint, Bool.not_true, Bool.true_and, Bool.false_and,
          Bool.false_eq_true, if_false, decide_eq_true_eq] at hpu h
        split_ifs at hpu with hb
        · simp at hpu
        · split_ifs at h with hr
          simp only [Except.ok.injEq] at h
          exact ⟨un, rest, hpu, hb, Or.inr (Or.inl ⟨rfl, rfl, h.symm, by norm_num at hr ⊢; omega⟩)⟩
      · have e1 : (c == 0x2B) = false := by simpa using c1
        have e2 : (c == 0x2D) = false := by simpa using c2
        simp only [e1, e2, parseUint, Bool.not_false, Bool.true_and, Bool.false_and,
          Bool.false_eq_true, if_false, decide_eq_true_eq, reduceCtorEq] at hpu h
        split_ifs at h with hr
        simp only [Except.ok.injEq] at h
        exact ⟨un, c :: rest, hpu, by simp,
          Or.inr (Or.inr ⟨c1, c2, rfl, h.symm, by norm_num at hr ⊢; omega⟩)⟩

/-- A value that `ParseInt(hex, 16, 32)` returns lies in the range of `int32`;
it is below `16 ^ len(hex)`, or it is negative and `hex` has a digit after its
sign. -/
theorem parseInt_ok_range (hex : Str) (num : Int) (h : parseInt hex 16 32 = .ok num) :
    -(2 ^ 31) ≤ num ∧ num < 2 ^ 31 ∧
      ((0 ≤ num ∧ num < (16 ^ hex.length : Nat)) ∨ (num < 0 ∧ 2 ≤ hex.length)) := by
  cases hex with
  | nil => simp [parseInt] at h
  | cons c rest =>
    obtain ⟨un, body, hloop, hne, hc⟩ := parseInt_ok_inv c rest num h
    have hlt := parseUintLoop_value_lt _ _ _ _ _ hloop
    simp only [zero_add, one_mul] at hlt
    have hpow : (16 : Nat) ^ rest.length ≤ 16 ^ (c :: rest).length :=
      Nat.pow_le_pow_right (by norm_num) (by simp)
    have hrest : rest ≠ [] → 2 ≤ (c :: rest).length := by
      intro hr
      have := List.length_pos.mpr hr
      simp only [List.length_cons]
      omega
    rcases hc with ⟨-, rfl, rfl, hb⟩ | ⟨-, rfl, rfl, hb⟩ | ⟨-, -, rfl, rfl, hb⟩
    · refine ⟨by omega, by exact_mod_cast hb, Or.inl ⟨by omega, ?_⟩⟩
      exact_mod_cast lt_of_lt_of_le hlt hpow
    · refine ⟨by norm_num at hb ⊢; omega, by norm_num; omega, ?_⟩
      rcases Nat.eq_zero_or_pos un with h0 | h0
      · subst h0
        exact Or.inl ⟨by simp, by simp⟩
      · exact Or.inr ⟨by omega, hrest hne⟩
    · refine ⟨by omega, by exact_mod_cast hb, Or.inl ⟨by omega, ?_⟩⟩
      exact_mod_cast hlt

/-- The encoded rune that replaces an escape is shorter than the escape: the
introducer and its hex field. -/
theorem length_replacement_lt (hex : Str) (num : Int) (h : parseInt hex 16 32 = .ok num) :
    (runeToString (toRune num)).length < 2 + hex.length := by
  obtain ⟨hlo, hhi, hcase⟩ := parseInt_ok_range hex num h
  rw [toRune_of_range num hlo hhi]
  have hne : hex ≠ [] := by
    rintro rfl
    simp [parseInt] at h
  have hpos := List.length_pos.mpr hne
  rcases hcase with ⟨h0, hlt⟩ | ⟨hneg, h2⟩
  · obtain ⟨v, rfl⟩ := Int.eq_ofNat_of_zero_le h0
    rw [runeToString_natCast]
    have hv : v < 16 ^ hex.length := by exact_mod_cast hlt
    have h4 := (length_encodeRune v).2
    rcases Nat.lt_or_ge hex.length 3 with hs | hs
    · have : hex.length = 1 ∨ hex.length = 2 := by omega
      rcases this with e | e
      · rw [e] at hv ⊢
        have : v ≤ 0x7F := by norm_num at hv ⊢; omega
        simp [encodeRune, this]
      · rw [e] at hv ⊢
        have : v ≤ 0x7FF := by norm_num at hv ⊢; omega
        unfold encodeRune
        split_ifs <;> simp
    · omega
  · unfold runeToString
    rw [if_pos hneg]
    have : (encodeRune runeError).length = 3 := by decide
    omega

/-- With a budget above the length of `s` the loop of `unescapeUChar` is left:
it returns or it panics. -/
theorem unescapeUCharLoop_finishes (fuel : Nat) (s : Str) (h : s.length < fuel) :
    unescapeUCharLoop fuel s ≠ .unfinished := by
  induction fuel generalizing s with
  | zero => omega
  | succ k ih =>
    rw [unescapeUCharLoop]
    cases hsp : splitEscape s with
    | none => simp
    | some triple =>
      obtain ⟨start, hex, tail⟩ := triple
      dsimp only
      cases hp : parseInt hex 16 32 with
      | error e => simp
      | ok num =>
        dsimp only
        obtain ⟨x, hjoin, -⟩ := splitEscape_join s start hex tail hsp
        have hlt := length_replacement_lt hex num hp
        apply ih
        have : s.length = start.length + 2 + (hex.length + tail.length) := by
          rw [hjoin]; simp; omega
        simp only [List.length_append]
        omega

/-- The function `unescapeUChar` returns or panics on every input. -/
theorem unescapeUChar_finishes (s : Str) : unescapeUChar s ≠ .unfinished :=
  unescapeUCharLoop_finishes _ s (Nat.lt_succ_self _)

/-- Two budgets above the length of `s` make the loop do the same. -/
theorem unescapeUCharLoop_budgets (fuel1 fuel2 : Nat) (s : Str) (h1 : s.length < fuel1)
    (h2 : s.length < fuel2) : unescapeUCharLoop fuel1 s = unescapeUCharLoop fuel2 s := by
  induction fuel1 generalizing fuel2 s with
  | zero => omega
  | succ k ih =>
    obtain ⟨k2, rfl⟩ : ∃ k2, fuel2 = k2 + 1 := ⟨fuel2 - 1, by omega⟩
    rw [unescapeUCharLoop, unescapeUCharLoop]
    cases hsp : splitEscape s with
    | none => rfl
    | some triple =>
      obtain ⟨start, hex, tail⟩ := triple
      dsimp only
      cases hp : parseInt hex 16 32 with
      | error e => rfl
      | ok num =>
        dsimp only
        obtain ⟨x, hjoin, -⟩ := splitEscape_join s start hex tail hsp
        have hlt := length_replacement_lt hex num hp
        have hl : s.length = start.length + 2 + (hex.length + tail.length) := by
          rw [hjoin]; simp; omega
        have hshort : (start ++ runeToString (toRune num) ++ tail).length < s.length := by
          simp only [List.length_append]
          omega
        exact ih k2 _ (by omega) (by omega)

/-- A budget above the length of `s` makes the loop do what `unescapeUChar` does. -/
theorem unescapeUCharLoop_budget (fuel : Nat) (s : Str) (h : s.length < fuel) :
    unescapeUCharLoop fuel s = unescapeUChar s :=
  unescapeUCharLoop_budgets fuel (s.length + 1) s h (Nat.lt_succ_self _)

/-- One round of the loop, as an equation on `unescapeUChar` itself: the
function, applied to `s`, is `s` where no introducer is left, the panic where
the hex field does not parse, and itself on the string after the substitution. -/
theorem unescapeUChar_step (s : Str) :
    unescapeUChar s =
      match splitEscape s with
      | none => .ok s
      | some (start, hex, tail) =>
        match parseInt hex 16 32 with
        | .error e => .panic (.numError e)
        | .ok num => unescapeUChar (start ++ runeToString (toRune num) ++ tail) := by
  rw [unescapeUChar, unescapeUCharLoop]
  cases hsp : splitEscape s with
  | none => rfl
  | some triple =>
    obtain ⟨start, hex, tail⟩ := triple
    dsimp only
    cases hp : parseInt hex 16 32 with
    | error e => rfl
    | ok num =>
      dsimp only
      obtain ⟨x, hjoin, -⟩ := splitEscape_join s start hex tail hsp
      have hlt := length_replacement_lt hex num hp
      have hl : s.length = start.length + 2 + (hex.length + tail.length) := by
        rw [hjoin]; simp; omega
      apply unescapeUCharLoop_budget
      simp only [List.length_append]
      omega

/-! ## Truncated escapes, signs, and an escaped backslash -/

/-- C4, as the claim states it, fails: the input backslash-`u` followed by the
two hex digits `41` is truncated, yet `unescapeUChar` returns `A`; it does
not fail. -/
theorem unescapeUChar_truncated_returns :
    unescapeUChar [0x5C, 0x75, 0x34, 0x31] = .ok [0x41] ∧
      ¬ ∃ p, unescapeUChar [0x5C, 0x75, 0x34, 0x31] = .panic p := by
  have h : unescapeUChar [0x5C, 0x75, 0x34, 0x31] = .ok [0x41] := by decide
  refine ⟨h, ?_⟩
  rintro ⟨p, hp⟩
  rw [h] at hp
  cases hp

/-- C4, amended: an input that ends with backslash-`u` or backslash-`U` and
nothing after it makes `unescapeUChar` panic with the error of `ParseInt`,
whatever precedes the introducer; and where one to three hex digits follow a
backslash-`u`, or one to seven a backslash-`U`, the digits present are the hex
field: the input that is just that escape returns the rune of their value. -/
theorem unescapeUChar_truncated (p : Str) (upper : Bool) (k v : Nat) (hk : 1 ≤ k) (hk7 : k ≤ 7)
    (hv : v < 16 ^ k) :
    (∃ e, unescapeUChar (p ++ [0x5C, 0x75]) = .panic (.numError e)) ∧
    (∃ e, unescapeUChar (p ++ [0x5C, 0x55]) = .panic (.numError e)) ∧
    (k ≤ 3 → unescapeUChar ([0x5C, 0x75] ++ hexForm upper k v) = .ok (encodeRune v)) ∧
    unescapeUChar ([0x5C, 0x55] ++ hexForm upper k v) = .ok (encodeRune v) := by
  have hv28 : v < 2 ^ 31 := by
    have : (16 : Nat) ^ k ≤ 16 ^ 7 := Nat.pow_le_pow_right (by norm_num) hk7
    norm_num at this ⊢
    omega
  refine ⟨?_, ?_, ?_, ?_⟩
  · exact unescapeUCharLoop_suffix_intro 0x75 (Or.inl rfl) _ _ (Nat.lt_succ_self _)
      (List.suffix_append _ _)
  · exact unescapeUCharLoop_suffix_intro 0x55 (Or.inr rfl) _ _ (Nat.lt_succ_self _)
      (List.suffix_append _ _)
  · intro h3
    exact unescapeUChar_u4_hexForm upper k v hk (by omega) hv
  · exact unescapeUChar_u8_hexForm upper k v hk (by omega) hv hv28

/-- The witness of C4: after the prefix `ab`, and for the three lower-case
hex digits `fff`. -/
theorem unescapeUChar_truncated_witness :
    (∃ e, unescapeUChar ([0x61, 0x62] ++ [0x5C, 0x75]) = .panic (.numError e)) ∧
    (∃ e, unescapeUChar ([0x61, 0x62] ++ [0x5C, 0x55]) = .panic (.numError e)) ∧
    (3 ≤ 3 → unescapeUChar ([0x5C, 0x75] ++ hexForm false 3 0xFFF) = .ok (encodeRune 0xFFF)) ∧
    unescapeUChar ([0x5C, 0x55] ++ hexForm false 3 0xFFF) = .ok (encodeRune 0xFFF) :=
  unescapeUChar_truncated [0x61, 0x62] false 3 0xFFF (by decide) (by decide) (by decide)

/-- C5 on the code: a hex field that starts with a sign is not made of hex
digits, yet `unescapeUChar` decodes backslash-`u` followed by `+041` to `A`,
and backslash-`u` followed by `-041` to `U+FFFD`, without failing. -/
theorem unescapeUChar_signed_field :
    unescapeUChar [0x5C, 0x75, 0x2B, 0x30, 0x34, 0x31] = .ok [0x41] ∧
    unescapeUChar [0x5C, 0x75, 0x2D, 0x30, 0x34, 0x31] = .ok [0xEF, 0xBF, 0xBD] := by
  decide

/-- C2 on the code: two backslashes followed by one of the letters `t`, `b`,
`n`, `r`, `f` decode to one backslash followed by the control character (TAB,
BS, LF, CR, FF), not by the letter; and the triple-quoted token whose body is
`a`, two backslashes, `b` has the lexical form `a`, backslash, BS. -/
theorem unescapeEChar_escaped_backslash :
    unescapeEChar [0x5C, 0x5C, 0x74] = [0x5C, 0x09] ∧
    unescapeEChar [0x5C, 0x5C, 0x62] = [0x5C, 0x08] ∧
    unescapeEChar [0x5C, 0x5C, 0x6E] = [0x5C, 0x0A] ∧
    unescapeEChar [0x5C, 0x5C, 0x72] = [0x5C, 0x0D] ∧
    unescapeEChar [0x5C, 0x5C, 0x66] = [0x5C, 0x0C] ∧
    lexicalForm [0x22, 0x22, 0x22, 0x61, 0x5C, 0x5C, 0x62, 0x22, 0x22, 0x22] =
      .ok [0x61, 0x5C, 0x08] := by
  decide

/-! ## The literal-body helper -/

/-- Slicing off `n` bytes on each side of `d ++ b ++ d'` where both delimiters
have `n` bytes. -/
theorem slice_delimited (d b d2 : Str) (n : Nat) (hd : d.length = n) (hd2 : d2.length = n) :
    slice (d ++ b ++ d2) (n : Int) (((d ++ b ++ d2).length : Int) - n) = .ok b := by
  have hl : (d ++ b ++ d2).length = n + b.length + n := by simp [hd, hd2]; omega
  unfold slice
  rw [if_pos (by rw [hl]; push_cast; omega)]
  congr 1
  rw [hl]
  have e1 : ((n : Int)).toNat = d.length := by simp [hd]
  have e2 : (((n + b.length + n : Nat) : Int) - n - n).toNat = b.length := by
    push_cast; omega
  rw [e1, e2, List.append_assoc, List.drop_left, List.take_left]

/-- C3, as the claim states it, fails: the body `""abc""` between two double
quotes is the token `"""abc"""`, which `lexicalForm` takes for a triple-quoted
token and decodes to `abc`, while the two passes on the body keep its quotes. -/
theorem lexicalForm_quote_in_body :
    lexicalForm ([0x22] ++ [0x22, 0x22, 0x61, 0x62, 0x63, 0x22, 0x22] ++ [0x22]) =
      .ok [0x61, 0x62, 0x63] ∧
    (unescapeUChar [0x22, 0x22, 0x61, 0x62, 0x63, 0x22, 0x22]).bind
        (fun u => .ok (unescapeEChar u)) =
      .ok [0x22, 0x22, 0x61, 0x62, 0x63, 0x22, 0x22] := by
  decide

/-- C3, amended: for every body `b` and each of the four delimiters `d`, where
for a one-byte delimiter the token `d ++ b ++ d` does not start with three
copies of it, `lexicalForm (d ++ b ++ d)` is the Unicode pass on `b` followed
by the short-escape pass (and panics where the Unicode pass panics), whatever
the delimiter; the token `"Hello\u0041"` gives `HelloA` and the token
`"line1\nline2"` gives `line1`, LF, `line2`. -/
theorem lexicalForm_delimited (d b : Str)
    (hd : d ∈ [[0x22], [0x27], [0x22, 0x22, 0x22], [(0x27 : UInt8), 0x27, 0x27]])
    (h1 : d.length = 1 → ¬ (d ++ d ++ d) <+: (d ++ b ++ d)) :
    lexicalForm (d ++ b ++ d) = (unescapeUChar b).bind (fun u => .ok (unescapeEChar u)) ∧
    lexicalForm (ascii "\"Hello\\u0041\"") = .ok (ascii "HelloA") ∧
    lexicalForm (ascii "\"line1\\nline2\"") = .ok (ascii "line1" ++ [0x0A] ++ ascii "line2") := by
  refine ⟨?_, by decide, by decide⟩
  simp only [List.mem_cons, List.mem_singleton, List.not_mem_nil, or_false] at hd
  rcases hd with rfl | rfl | rfl | rfl
  · have hp : hasPrefix ([0x22] ++ b ++ [0x22]) [0x22, 0x22, 0x22] = false := by
      have := h1 rfl
      rw [hasPrefix]
      apply Bool.eq_false_iff.mpr
      intro hc
      exact this (List.isPrefixOf_iff_prefix.mp hc)
    have hq : hasPrefix ([0x22] ++ b ++ [0x22]) [0x27, 0x27, 0x27] = false := by
      simp [hasPrefix, List.isPrefixOf]
    have hs := slice_delimited [0x22] b [0x22] 1 rfl rfl
    simp only [Nat.cast_one] at hs
    simp only [lexicalForm, hp, hq, Bool.or_self, Bool.false_eq_true, if_false, hs, Outcome.bind]
  · have hp : hasPrefix ([0x27] ++ b ++ [0x27]) [0x22, 0x22, 0x22] = false := by
      simp [hasPrefix, List.isPrefixOf]
    have hq : hasPrefix ([0x27] ++ b ++ [0x27]) [0x27, 0x27, 0x27] = false := by
      have := h1 rfl
      rw [hasPrefix]
      apply Bool.eq_false_iff.mpr
      intro hc
      exact this (List.isPrefixOf_iff_prefix.mp hc)
    have hs := slice_delimited [0x27] b [0x27] 1 rfl rfl
    simp only [Nat.cast_one] at hs
    simp only [lexicalForm, hp, hq, Bool.or_self, Bool.false_eq_true, if_false, hs, Outcome.bind]
  · have hp : hasPrefix ([0x22, 0x22, 0x22] ++ b ++ [0x22, 0x22, 0x22]) [0x22, 0x22, 0x22] = true := by
      simp [hasPrefix, List.isPrefixOf]
    have hs := slice_delimited [0x22, 0x22, 0x22] b [0x22, 0x22, 0x22] 3 rfl rfl
    simp only [Nat.cast_ofNat] at hs
    simp only [lexicalForm, hp, Bool.true_or, if_true, hs, Outcome.bind]
  · have hp : hasPrefix ([0x27, 0x27, 0x27] ++ b ++ [0x27, 0x27, 0x27]) [0x27, 0x27, 0x27] = true := by
      simp [hasPrefix, List.isPrefixOf]
    have hs := slice_delimited [0x27, 0x27, 0x27] b [0x27, 0x27, 0x27] 3 rfl rfl
    simp only [Nat.cast_ofNat] at hs
    simp only [lexicalForm, hp, Bool.or_true, if_true, hs, Outcome.bind]

/-- The witness of C3: the body `a\tb` between single quotes. -/
theorem lexicalForm_delimited_witness :
    lexicalForm ([0x27] ++ [0x61, 0x5C, 0x74, 0x62] ++ [0x27]) =
      (unescapeUChar [0x61, 0x5C, 0x74, 0x62]).bind (fun u => .ok (unescapeEChar u)) ∧
    lexicalForm (ascii "\"Hello\\u0041\"") = .ok (ascii "HelloA") ∧
    lexicalForm (ascii "\"line1\\nline2\"") = .ok (ascii "line1" ++ [0x0A] ++ ascii "line2") :=
  lexicalForm_delimited [0x27] [0x61, 0x5C, 0x74, 0x62] (by decide) (by decide)

/-! ## Applying the short-escape pass twice -/

/-- An occurrence that `strings.Index` found lies inside the string. -/
theorem index_some_bound (s sub : Str) (i : Nat) (h : index s sub = some i) :
    i + sub.length ≤ s.length := by
  induction s generalizing i with
  | nil =>
    simp only [index] at h
    split_ifs at h with hp
    have := (List.isPrefixOf_iff_prefix.mp hp).length_le
    simp only [Option.some.injEq] at h
    omega
  | cons c t ih =>
    simp only [index] at h
    split_ifs at h with hp
    · have := (List.isPrefixOf_iff_prefix.mp hp).length_le
      simp only [Option.some.injEq] at h
      omega
    · cases hj : index t sub with
      | none => simp [hj] at h
      | some j =>
        simp only [hj, Option.map_some', Option.some.injEq] at h
        have := ih j hj
        simp only [List.length_cons]
        omega

/-- A replacement by something no longer than `old` does not make the string longer. -/
theorem length_replaceLoop_le (old new : Str) (hlen : new.length ≤ old.length) (k : Nat)
    (s : Str) : (replaceLoop old new k s).length ≤ s.length := by
  induction k generalizing s with
  | zero => simp [replaceLoop]
  | succ k ih =>
    rw [replaceLoop]
    cases hi : index s old with
    | none => simp
    | some j =>
      have hb := index_some_bound s old j hi
      have := ih (s.drop (j + old.length))
      simp only [List.length_append, List.length_take, List.length_drop] at this ⊢
      omega

/-- A replacement by something shorter than `old` makes the string shorter
where `old` occurs. -/
theorem length_replaceAll_lt (s old new : Str) (hlen : new.length < old.length)
    (h : old <:+: s) : (replaceAll s old new).length < s.length := by
  obtain ⟨j, hj⟩ := index_some_of_present s old h
  have hb := index_some_bound s old j hj
  obtain ⟨k, hk⟩ : ∃ k, s.length = k + 1 := ⟨s.length - 1, by omega⟩
  rw [replaceAll, hk, replaceLoop]
  simp only [hj]
  have := length_replaceLoop_le old new (le_of_lt hlen) k (s.drop (j + old.length))
  simp only [List.length_append, List.length_take, List.length_drop] at this ⊢
  omega

/-- Rows whose right side is shorter than their left side never make the
string longer. -/
theorem length_foldl_rows_le (rows : List (Str × Str)) (hrows : ∀ r ∈ rows, r.2.length < r.1.length)
    (s : Str) : (rows.foldl (fun acc r => replaceAll acc r.1 r.2) s).length ≤ s.length := by
  induction rows generalizing s with
  | nil => simp
  | cons r rs ih =>
    simp only [List.foldl_cons]
    have h1 := ih (fun r hr => hrows r (List.mem_cons_of_mem _ hr)) (replaceAll s r.1 r.2)
    have h2 : (replaceAll s r.1 r.2).length ≤ s.length :=
      length_replaceLoop_le _ _ (le_of_lt (hrows r (List.mem_cons_self _ _))) _ _
    omega

/-- Where the left side of a row occurs, the passes make the string shorter. -/
theorem length_foldl_rows_lt (rows : List (Str × Str)) (hrows : ∀ r ∈ rows, r.2.length < r.1.length)
    (s : Str) (h : ∃ r ∈ rows, r.1 <:+: s) :
    (rows.foldl (fun acc r => replaceAll acc r.1 r.2) s).length < s.length := by
  induction rows generalizing s with
  | nil => simp at h
  | cons r rs ih =>
    simp only [List.foldl_cons]
    have hrs : ∀ r ∈ rs, r.2.length < r.1.length := fun r hr => hrows r (List.mem_cons_of_mem _ hr)
    by_cases hr : r.1 <:+: s
    · have h1 := length_replaceAll_lt s r.1 r.2 (hrows r (List.mem_cons_self _ _)) hr
      have h2 := length_foldl_rows_le rs hrs (replaceAll s r.1 r.2)
      omega
    · rw [replaceAll_of_absent s r.1 r.2 hr]
      apply ih hrs
      obtain ⟨r2, hm, hi⟩ := h
      rcases List.mem_cons.mp hm with e | hm
      · subst e; exact absurd hi hr
      · exact ⟨r2, hm, hi⟩

/-- C8, as the claim states it, fails: on four backslashes the first pass
returns two backslashes and the second pass one. -/
theorem unescapeEChar_twice_differs :
    unescapeEChar (unescapeEChar [0x5C, 0x5C, 0x5C, 0x5C]) ≠
      unescapeEChar [0x5C, 0x5C, 0x5C, 0x5C] := by
  decide

/-- C8, amended: a second application of `unescapeEChar` returns what the
first returned exactly when the result of the first contains none of the
eight two-byte sequences of the short-escape table. -/
theorem unescapeEChar_twice (s : Str) :
    unescapeEChar (unescapeEChar s) = unescapeEChar s ↔
      ∀ c ∈ [0x74, 0x62, 0x6E, 0x72, 0x66, 0x22, 0x27, (0x5C : UInt8)],
        ¬ [0x5C, c] <:+: unescapeEChar s := by
  constructor
  · intro heq c hc hin
    have hrow : ∃ r ∈ replacements, r.1 <:+: unescapeEChar s := by
      simp only [List.mem_cons, List.mem_singleton, List.not_mem_nil, or_false] at hc
      rcases hc with rfl | rfl | rfl | rfl | rfl | rfl | rfl | rfl
      · exact ⟨([0x5C, 0x74], [0x09]), by simp [replacements], hin⟩
      · exact ⟨([0x5C, 0x62], [0x08]), by simp [replacements], hin⟩
      · exact ⟨([0x5C, 0x6E], [0x0A]), by simp [replacements], hin⟩
      · exact ⟨([0x5C, 0x72], [0x0D]), by simp [replacements], hin⟩
      · exact ⟨([0x5C, 0x66], [0x0C]), by simp [replacements], hin⟩
      · exact ⟨([0x5C, 0x22], [0x22]), by simp [replacements], hin⟩
      · exact ⟨([0x5C, 0x27], [0x27]), by simp [replacements], hin⟩
      · exact ⟨([0x5C, 0x5C], [0x5C]), by simp [replacements], hin⟩
    have hlt := length_foldl_rows_lt replacements (by decide) (unescapeEChar s) hrow
    have := congrArg List.length heq
    unfold unescapeEChar at this hlt
    omega
  · intro h
    exact unescapeEChar_of_no_row _ (row_of_letters _ h)

/-! ## The bound on the loop of `strings.Replace` -/

/-- A non-empty `old` does not occur in the empty string. -/
theorem index_nil_of_ne_nil (old : Str) (h : old ≠ []) : index [] old = none := by
  cases old with
  | nil => exact absurd rfl h
  | cons a r => simp [index, List.isPrefixOf]

/-- Two bounds that are at least the length of `s` make the loop of
`strings.Replace` do the same: the bound is never what stops it. -/
theorem replaceLoop_budgets (old new : Str) (hold : old ≠ []) (k1 k2 : Nat) (s : Str)
    (h1 : s.length ≤ k1) (h2 : s.length ≤ k2) :
    replaceLoop old new k1 s = replaceLoop old new k2 s := by
  induction k1 generalizing k2 s with
  | zero =>
    have e : s = [] := List.length_eq_zero.mp (by omega)
    subst e
    cases k2 with
    | zero => rfl
    | succ k => simp [replaceLoop, index_nil_of_ne_nil old hold]
  | succ k ih =>
    cases k2 with
    | zero =>
      have e : s = [] := List.length_eq_zero.mp (by omega)
      subst e
      simp [replaceLoop, index_nil_of_ne_nil old hold]
    | succ k2 =>
      rw [replaceLoop, replaceLoop]
      cases hi : index s old with
      | none => rfl
      | some j =>
        dsimp only
        have hb := index_some_bound s old j hi
        have hpos := List.length_pos.mpr hold
        rw [ih k2 (s.drop (j + old.length)) (by simp only [List.length_drop]; omega)
          (by simp only [List.length_drop]; omega)]

/-- One round of `strings.Replace` as an equation on `replaceAll` itself. -/
theorem replaceAll_step (s old new : Str) (hold : old ≠ []) :
    replaceAll s old new =
      match index s old with
      | none => s
      | some j => s.take j ++ new ++ replaceAll (s.drop (j + old.length)) old new := by
  cases hi : index s old with
  | none =>
    dsimp only
    have : ¬ old <:+: s := by
      intro hin
      obtain ⟨i, h⟩ := index_some_of_present s old hin
      rw [hi] at h
      cases h
    exact replaceAll_of_absent s old new this
  | some j =>
    dsimp only
    have hb := index_some_bound s old j hi
    have hpos := List.length_pos.mpr hold
    obtain ⟨k, hk⟩ : ∃ k, s.length = k + 1 := ⟨s.length - 1, by omega⟩
    rw [replaceAll, hk, replaceLoop]
    simp only [hi]
    rw [replaceAll, replaceLoop_budgets old new hold k _ _
      (by simp only [List.length_drop]; omega) (le_refl _)]

/-! ## Rendering a literal -/

/-- A byte is the byte of its value. -/
theorem ofNat_toNat (c : UInt8) : UInt8.ofNat c.toNat = c := by
  apply UInt8.ext_iff.mpr
  show c.toNat % 256 = c.toNat
  exact Nat.mod_eq_of_lt (UInt8.toNat_lt_size c)

/-- A printable ASCII rune other than the quote and the backslash is written as it is. -/
theorem appendEscapedRune_plain (tbl : Nat → Bool) (c : UInt8) (h1 : 0x20 ≤ c.toNat)
    (h2 : c.toNat ≤ 0x7E) (h3 : c ≠ 0x22) (h4 : c ≠ 0x5C) :
    appendEscapedRune tbl c.toNat = [c] := by
  have n3 : c.toNat ≠ 0x22 := fun e => h3 (UInt8.ext_iff.mpr e)
  have n4 : c.toNat ≠ 0x5C := fun e => h4 (UInt8.ext_iff.mpr e)
  have hp : isPrint tbl c.toNat = true := by
    unfold isPrint
    rw [if_pos (by omega), if_pos ⟨h1, h2⟩]
  unfold appendEscapedRune
  rw [if_neg (by rintro (e | e); exacts [n3 e, n4 e]), if_pos hp]
  unfold encodeRune
  rw [if_pos (by omega), ofNat_toNat]

/-- The quoting loop copies a string of printable ASCII bytes other than the
quote and the backslash. -/
theorem quoteLoop_plain (tbl : Nat → Bool) (s : Str)
    (h : ∀ b ∈ s, 0x20 ≤ b.toNat ∧ b.toNat ≤ 0x7E ∧ b ≠ 0x22 ∧ b ≠ 0x5C) :
    quoteLoop tbl s.length s = s := by
  induction s with
  | nil => rfl
  | cons c t ih =>
    obtain ⟨h1, h2, h3, h4⟩ := h c (List.mem_cons_self _ _)
    have iht := ih (fun b hb => h b (List.mem_cons_of_mem _ hb))
    have hlow : ¬ c.toNat ≥ 0x80 := by omega
    have hre : ¬ (True ∧ c.toNat = runeError) := by
      rintro ⟨-, e⟩
      simp only [runeError] at e
      omega
    simp only [List.length_cons, quoteLoop, hlow, if_false, hre, List.drop_succ_cons,
      List.drop_zero, iht, appendEscapedRune_plain tbl c h1 h2 h3 h4]
    rfl

/-- C9, as the claim states it, fails: for the literal whose lexical form is
one double quote and whose language tag is `en`, `String()` writes the quote
with a backslash before it, whatever the Unicode tables say, not verbatim. -/
theorem literal_string_escapes_quote :
    (∀ tbl : Nat → Bool,
      Literal.String tbl ⟨[0x22], ⟨none⟩, [0x65, 0x6E]⟩ =
        [0x22, 0x5C, 0x22, 0x22, 0x40, 0x65, 0x6E]) ∧
    ([0x22, 0x5C, 0x22, 0x22, 0x40, 0x65, 0x6E] : Str) ≠
      [0x22] ++ [0x22] ++ [0x22] ++ ([0x40] ++ [0x65, 0x6E]) :=
  ⟨fun _ => rfl, by decide⟩

/-- C9, amended: for every Literal `l`, `l.String()` is the Go-quoted form of
the lexical form (what `%q` writes) followed by `@` and the language tag when
the tag is not empty and by `^^` and the `<...>` render of the datatype IRI
otherwise; and where the lexical form is made of printable ASCII characters
other than the double quote and the backslash, the quoted form is the lexical
form verbatim between two double quotes. -/
theorem literal_string_render (tbl : Nat → Bool) (l : Literal) :
    l.String tbl = quote tbl l.LexicalForm ++
      (if l.LanguageTag ≠ [] then [0x40] ++ l.LanguageTag
       else [0x5E, 0x5E] ++ l.DatatypeIRI.String) ∧
    ((∀ b ∈ l.LexicalForm, 0x20 ≤ b.toNat ∧ b.toNat ≤ 0x7E ∧ b ≠ 0x22 ∧ b ≠ 0x5C) →
      l.String tbl = [0x22] ++ l.LexicalForm ++ [0x22] ++
        (if l.LanguageTag ≠ [] then [0x40] ++ l.LanguageTag
         else [0x5E, 0x5E] ++ l.DatatypeIRI.String)) := by
  have first : l.String tbl = quote tbl l.LexicalForm ++
      (if l.LanguageTag ≠ [] then [0x40] ++ l.LanguageTag
       else [0x5E, 0x5E] ++ l.DatatypeIRI.String) := by
    unfold Literal.String
    split_ifs <;> simp
  refine ⟨first, ?_⟩
  intro h
  rw [first, quote, quoteLoop_plain tbl _ h]

/-- The witness of C9: the literal `x` with the language tag `en`. -/
theorem literal_string_render_witness :
    Literal.String (fun _ => false) ⟨[0x78], ⟨none⟩, [0x65, 0x6E]⟩ =
      [0x22] ++ [0x78] ++ [0x22] ++ ([0x40] ++ [0x65, 0x6E]) :=
  (literal_string_render (fun _ => false) ⟨[0x78], ⟨none⟩, [0x65, 0x6E]⟩).2 (by decide)

/-! ## Rendering a graph and splitting the render -/

/-- The loop of `Graph.String` from index `n > 0` on: every triple is written
after an LF. -/
theorem graph_foldl_from (tbl : Nat → Bool) (g : List Triple) (n : Nat) (hn : 0 < n) (acc : Str) :
    (g.enumFrom n).foldl
        (fun str it => (if it.1 > 0 then str ++ [0x0A] else str) ++ Triple.String tbl it.2) acc =
      acc ++ (g.map (fun t => 0x0A :: t.String tbl)).flatten := by
  induction g generalizing n acc with
  | nil => simp
  | cons t rest ih =>
    simp only [List.enumFrom_cons, List.foldl_cons, List.map_cons, List.flatten_cons]
    rw [ih (n + 1) (by omega), if_pos hn]
    simp

/-- The render of a non-empty graph: the first triple, then every further
triple after an LF. -/
theorem graph_string_cons (tbl : Nat → Bool) (t : Triple) (rest : List Triple) :
    Graph.String tbl (t :: rest) =
      t.String tbl ++ (rest.map (fun u => 0x0A :: u.String tbl)).flatten := by
  simp only [Graph.String, List.enum, List.enumFrom_cons, List.foldl_cons]
  rw [graph_foldl_from tbl rest (0 + 1) (by omega)]
  simp

/-- A string without LF is one piece. -/
theorem splitLF_of_not_mem (a : Str) (h : (0x0A : UInt8) ∉ a) : splitLF a = [a] := by
  induction a with
  | nil => rfl
  | cons c t ih =>
    simp only [List.mem_cons, not_or] at h
    have hc : c ≠ 0x0A := fun e => h.1 e.symm
    simp [splitLF, hc, ih h.2]

/-- The first piece ends at the first LF. -/
theorem splitLF_append_LF (a b : Str) (h : (0x0A : UInt8) ∉ a) :
    splitLF (a ++ 0x0A :: b) = a :: splitLF b := by
  induction a with
  | nil => simp [splitLF]
  | cons c t ih =>
    simp only [List.mem_cons, not_or] at h
    have hc : c ≠ 0x0A := fun e => h.1 e.symm
    simp [splitLF, hc, ih h.2]

/-- Splitting pieces that hold no LF and were joined by LF gives the pieces back. -/
theorem splitLF_joined (a : Str) (rest : List Str) (ha : (0x0A : UInt8) ∉ a)
    (hr : ∀ r ∈ rest, (0x0A : UInt8) ∉ r) :
    splitLF (a ++ (rest.map (fun r => 0x0A :: r)).flatten) = a :: rest := by
  induction rest generalizing a with
  | nil => simpa using splitLF_of_not_mem a ha
  | cons r rs ih =>
    simp only [List.map_cons, List.flatten_cons, List.cons_append]
    rw [splitLF_append_LF a _ ha, ih r (hr r (List.mem_cons_self _ _))
      (fun x hx => hr x (List.mem_cons_of_mem _ hx))]

/-- C10, as the claim states it, fails: the empty graph renders as the empty
string, and splitting the empty string on LF yields one (empty) piece, not as
many pieces as the graph has triples, which is none; and the graph of the one
triple whose subject is the blank node with the label `a`, LF, `b` splits
into two pieces. -/
theorem graph_split_empty :
    (∀ tbl : Nat → Bool, (splitLF (Graph.String tbl [])).length = 1) ∧
      ([] : Graph).length = 0 ∧
    (∀ tbl : Nat → Bool,
      (splitLF (Graph.String tbl
        [⟨.blank ⟨1, [0x61, 0x0A, 0x62]⟩, ⟨some ⟨[0x70]⟩⟩, .blank ⟨2, [0x63]⟩⟩])).length = 2) :=
  ⟨fun _ => rfl, rfl, fun _ => rfl⟩

/-- C10, amended: for every non-empty Graph `g` none of whose triples has an
LF in its render, splitting `g.String()` on LF yields the renders of the
triples of `g`, in order: as many pieces as `g` has triples, the `i`-th being
the `String()` of the `i`-th triple. -/
theorem graph_split_renders (tbl : Nat → Bool) (g : Graph) (hne : g ≠ [])
    (hlf : ∀ t ∈ g, (0x0A : UInt8) ∉ t.String tbl) :
    splitLF (g.String tbl) = g.map (Triple.String tbl) := by
  cases g with
  | nil => exact absurd rfl hne
  | cons t rest =>
    rw [graph_string_cons]
    have e : rest.map (fun u => 0x0A :: u.String tbl) =
        (rest.map (Triple.String tbl)).map (fun r => 0x0A :: r) := by
      simp [List.map_map]
    rw [e, splitLF_joined _ _ (hlf t (List.mem_cons_self _ _))]
    · rfl
    · intro r hr
      obtain ⟨u, hu, rfl⟩ := List.mem_map.mp hr
      exact hlf u (List.mem_cons_of_mem _ hu)

/-- The witness of C10: the graph of two triples between blank nodes. -/
theorem graph_split_renders_witness :
    splitLF (Graph.String (fun _ => false)
        [⟨.blank ⟨1, [0x61]⟩, ⟨some ⟨[0x70]⟩⟩, .blank ⟨2, [0x62]⟩⟩,
         ⟨.blank ⟨1, [0x61]⟩, ⟨some ⟨[0x70]⟩⟩, .blank ⟨3, [0x63]⟩⟩]) =
      List.map (Triple.String (fun _ => false))
        [⟨.blank ⟨1, [0x61]⟩, ⟨some ⟨[0x70]⟩⟩, .blank ⟨2, [0x62]⟩⟩,
         ⟨.blank ⟨1, [0x61]⟩, ⟨some ⟨[0x70]⟩⟩, .blank ⟨3, [0x63]⟩⟩] :=
  graph_split_renders (fun _ => false) _ (by decide) (by decide)

/-! ## The renders of graphs and triples, and equality of terms -/

/-- Joining with a separator: the first piece, then every further piece
after the separator. -/
theorem intercalate_cons (sep a : Str) (rest : List Str) :
    List.intercalate sep (a :: rest) = a ++ (rest.map (fun r => sep ++ r)).flatten := by
  induction rest generalizing a with
  | nil => simp [List.intercalate]
  | cons b more ih =>
    have h := ih b
    simp only [List.intercalate, List.intersperse, List.flatten_cons, List.map_cons,
      List.append_assoc] at h ⊢
    rw [h]

/-- C11: for every Graph `g`, `g.String()` is the `String()` renders of its
triples, in order, joined by a single LF with no LF before the first or after
the last render; the empty graph renders as the empty string, and a graph of
two triples renders as the first render, one LF, the second render. -/
theorem graph_string_joined (tbl : Nat → Bool) (g : Graph) :
    g.String tbl = List.intercalate [0x0A] (g.map (Triple.String tbl)) ∧
    Graph.String tbl [] = [] ∧
    ∀ t1 t2 : Triple, Graph.String tbl [t1, t2] = t1.String tbl ++ [0x0A] ++ t2.String tbl := by
  refine ⟨?_, rfl, ?_⟩
  · cases g with
    | nil => rfl
    | cons t rest =>
      rw [graph_string_cons, List.map_cons, intercalate_cons, List.map_map]
      rfl
  · intro t1 t2
    rw [graph_string_cons]
    simp

/-- C12: for every Triple `t`, `t.String()` is the render of the subject, a
space, the render of the predicate, a space, the render of the object, a space
and a full stop, which is its last byte (no newline follows); the triple of
the IRIs `http://a/s` and `http://a/p` and the literal `x` with the language
tag `en` renders as `<http://a/s> <http://a/p> "x"@en .`. -/
theorem triple_string_render (tbl : Nat → Bool) (t : Triple) :
    t.String tbl =
      t.Subject.String tbl ++ [0x20] ++ t.Predicate.String ++ [0x20] ++ t.Object.String tbl ++
        [0x20, 0x2E] ∧
    (t.String tbl).getLast? = some 0x2E ∧
    Triple.String tbl
        ⟨.iri ⟨some ⟨ascii "http://a/s"⟩⟩, ⟨some ⟨ascii "http://a/p"⟩⟩,
          .literal ⟨ascii "x",
            ⟨some ⟨ascii "http://www.w3.org/1999/02/22-rdf-syntax-ns#langString"⟩⟩,
            ascii "en"⟩⟩ =
      ascii "<http://a/s> <http://a/p> \"x\"@en ." := by
  refine ⟨rfl, ?_, rfl⟩
  have e : t.String tbl =
      (t.Subject.String tbl ++ [0x20] ++ t.Predicate.String ++ [0x20] ++ t.Object.String tbl ++
        [0x20]) ++ [0x2E] := by
    simp [Triple.String]
  rw [e, List.getLast?_concat]

/-- C13: a BlankNode equals itself; two BlankNodes are equal if and only if
their `Id` fields are equal; and two BlankNodes with the same `Id` are equal
whatever their `Label`s. -/
theorem blankNode_equal_id :
    (∀ b : BlankNode, b.Equal b = true) ∧
    (∀ b c : BlankNode, b.Equal c = true ↔ b.Id = c.Id) ∧
    (∀ (id : Int) (l1 l2 : Str), BlankNode.Equal ⟨id, l1⟩ ⟨id, l2⟩ = true) := by
  refine ⟨?_, ?_, ?_⟩
  · intro b
    simp [BlankNode.Equal]
  · intro b c
    simp [BlankNode.Equal]
  · intro id l1 l2
    simp [BlankNode.Equal]

/-- C14: `l.Equals(m)` is true if and only if the lexical forms are equal,
`IRI.Equals` holds of the datatype IRIs, which is equality of their `<...>`
renders, and the language tags are equal; so `Literal.Equals` is reflexive,
symmetric and transitive. -/
theorem literal_equals_fields :
    (∀ l m : Literal, l.Equals m = true ↔
      l.LexicalForm = m.LexicalForm ∧ l.DatatypeIRI.Equals m.DatatypeIRI = true ∧
        l.LanguageTag = m.LanguageTag) ∧
    (∀ i j : IRI, i.Equals j = true ↔ i.String = j.String) ∧
    (∀ l : Literal, l.Equals l = true) ∧
    (∀ l m : Literal, l.Equals m = true → m.Equals l = true) ∧
    (∀ l m n : Literal, l.Equals m = true → m.Equals n = true → l.Equals n = true) := by
  have hiri : ∀ i j : IRI, i.Equals j = true ↔ i.String = j.String := by
    intro i j
    simp [IRI.Equals]
  have hlit : ∀ l m : Literal, l.Equals m = true ↔
      l.LexicalForm = m.LexicalForm ∧ l.DatatypeIRI.String = m.DatatypeIRI.String ∧
        l.LanguageTag = m.LanguageTag := by
    intro l m
    simp [Literal.Equals, IRI.Equals, and_assoc]
  refine ⟨?_, hiri, ?_, ?_, ?_⟩
  · intro l m
    rw [hlit, hiri]
  · intro l
    rw [hlit]
    exact ⟨rfl, rfl, rfl⟩
  · intro l m h
    rw [hlit] at h ⊢
    exact ⟨h.1.symm, h.2.1.symm, h.2.2.symm⟩
  · intro l m n h1 h2
    rw [hlit] at h1 h2 ⊢
    exact ⟨h1.1.trans h2.1, h1.2.1.trans h2.2.1, h1.2.2.trans h2.2.2⟩

/-- The witness of C14: two literals `x` with the same datatype and no
language tag. -/
theorem literal_equals_fields_witness :
    Literal.Equals ⟨[0x78], ⟨some ⟨[0x64]⟩⟩, []⟩ ⟨[0x78], ⟨some ⟨[0x64]⟩⟩, []⟩ = true :=
  literal_equals_fields.2.2.2.1 ⟨[0x78], ⟨some ⟨[0x64]⟩⟩, []⟩ ⟨[0x78], ⟨some ⟨[0x64]⟩⟩, []⟩
    (by decide)

/-! ## From an IRI reference to an IRI -/

/-- On a string between `<` and `>` the function `iriRefToURL` hands the
Unicode pass on the body to the parser. -/
theorem iriRefToURL_wrapped (parse : Str → Except URLError URL) (b : Str) :
    iriRefToURL parse ([0x3C] ++ b ++ [0x3E]) =
      (unescapeUChar b).bind (fun u => .ok (parse u)) := by
  have hp : hasPrefix ([0x3C] ++ b ++ [0x3E]) [0x3C] = true := by
    simp [hasPrefix, List.isPrefixOf]
  have hs := slice_delimited [0x3C] b [0x3E] 1 rfl rfl
  simp only [Nat.cast_one] at hs
  simp only [iriRefToURL, hp, if_true, hs, Outcome.bind]

/-- On a string that does not start with `<` the function `iriRefToURL` hands
the Unicode pass on the whole string to the parser. -/
theorem iriRefToURL_bare (parse : Str → Except URLError URL) (s : Str)
    (h : hasPrefix s [0x3C] = false) :
    iriRefToURL parse s = (unescapeUChar s).bind (fun u => .ok (parse u)) := by
  simp only [iriRefToURL, h, Bool.false_eq_true, if_false, Outcome.bind]

/-- C15 on the code: for the string `<abc`, which starts with `<` and does
not end with `>`, the parser is handed `ab`: the last byte, which is no
bracket, is removed with the first; and on the string `<` alone the slice
panics before anything is handed to the parser. -/
theorem iriRefToURL_strips_last_byte :
    (∀ parse : Str → Except URLError URL,
      iriRefToURL parse [0x3C, 0x61, 0x62, 0x63] = .ok (parse [0x61, 0x62])) ∧
    (∀ parse : Str → Except URLError URL,
      iriRefToURL parse [0x3C] = .panic .sliceBounds) :=
  ⟨fun _ => rfl, fun _ => rfl⟩

/-- C16, as the claim states it, fails: from `<A:b>` the function
`newIRIFromString` succeeds, the Unicode pass leaves the body `A:b` as it is,
and the IRI renders as `<a:b>`: `url.Parse` puts the scheme in lower case. -/
theorem newIRIFromString_lowers_scheme :
    (∀ lib : Str → Except URLError URL,
      newIRIFromString (urlParse lib) [0x3C, 0x41, 0x3A, 0x62, 0x3E] =
        .ok (⟨some ⟨[0x61, 0x3A, 0x62]⟩⟩, none)) ∧
    IRI.String ⟨some ⟨[0x61, 0x3A, 0x62]⟩⟩ = [0x3C, 0x61, 0x3A, 0x62, 0x3E] ∧
    unescapeUChar [0x41, 0x3A, 0x62] = .ok [0x41, 0x3A, 0x62] ∧
    ([0x3C, 0x61, 0x3A, 0x62, 0x3E] : Str) ≠ [0x3C] ++ [0x41, 0x3A, 0x62] ++ [0x3E] :=
  ⟨fun _ => rfl, by decide, by decide, by decide⟩

/-- C16, amended: for every string `<` + `b` + `>` from which
`newIRIFromString` succeeds, the Unicode pass returned a string `u` for `b`,
the parser returned a URL for `u`, and the IRI's `String()` is `<`, what the
URL's `String` method writes, `>`; that is `<` + `u` + `>` exactly where the
URL is written as the text it was parsed from.  It is so for
`http://example.org/s`: from `<http://example.org/s>` the function succeeds
and the IRI renders as `<http://example.org/s>`. -/
theorem newIRIFromString_render (parse : Str → Except URLError URL) (b : Str) :
    (∀ iri : IRI, newIRIFromString parse ([0x3C] ++ b ++ [0x3E]) = .ok (iri, none) →
      ∃ (u : Str) (url : URL), unescapeUChar b = .ok u ∧ parse u = .ok url ∧
        iri.String = [0x3C] ++ url.text ++ [0x3E] ∧
        (iri.String = [0x3C] ++ u ++ [0x3E] ↔ url.text = u)) ∧
    (∀ lib : Str → Except URLError URL,
      newIRIFromString (urlParse lib) (ascii "<http://example.org/s>") =
        .ok (⟨some ⟨ascii "http://example.org/s"⟩⟩, none)) ∧
    IRI.String ⟨some ⟨ascii "http://example.org/s"⟩⟩ = ascii "<http://example.org/s>" := by
  refine ⟨?_, fun _ => rfl, by decide⟩
  intro iri h
  rw [newIRIFromString, iriRefToURL_wrapped] at h
  cases hu : unescapeUChar b with
  | panic p => simp [hu, Outcome.bind] at h
  | unfinished => simp [hu, Outcome.bind] at h
  | ok u =>
    simp only [hu, Outcome.bind] at h
    cases hp : parse u with
    | error e => simp [hp] at h
    | ok url =>
      simp only [hp, Outcome.ok.injEq, Prod.mk.injEq, and_true] at h
      subst h
      refine ⟨u, url, rfl, hp, rfl, ?_⟩
      simp [IRI.String]

/-- The witness of C16: the string `<http://example.org/s>`, with a library
that fails on everything that the embedded part of `url.Parse` leaves to it. -/
theorem newIRIFromString_render_witness :
    ∃ (u : Str) (url : URL), unescapeUChar (ascii "http://example.org/s") = .ok u ∧
      urlParse (fun _ => .error (.other [])) u = .ok url ∧
      IRI.String ⟨some ⟨ascii "http://example.org/s"⟩⟩ = [0x3C] ++ url.text ++ [0x3E] ∧
      (IRI.String ⟨some ⟨ascii "http://example.org/s"⟩⟩ = [0x3C] ++ u ++ [0x3E] ↔
        url.text = u) :=
  (newIRIFromString_render (urlParse (fun _ => .error (.other [])))
    (ascii "http://example.org/s")).1
    ⟨some ⟨ascii "http://example.org/s"⟩⟩ (by decide)

/-! ## The order of the substitutions, the result, and termination -/

/-- Where the string holds a backslash-`u`, the loop cuts at the first one. -/
theorem splitEscape_of_u4 (s : Str) (i : Nat) (h : index s [0x5C, 0x75] = some i) :
    splitEscape s = some (s.take i, (s.drop (i + 2)).take 4, s.drop (i + 6)) := by
  simp only [splitEscape, introU4, h]
  split_ifs with hc
  · have e1 : (s.drop (i + 2)).take 4 = s.drop (i + 2) :=
      List.take_of_length_le (by simp only [List.length_drop]; omega)
    have e2 : s.drop (i + 6) = [] := List.drop_eq_nil_of_le (by omega)
    rw [e1, e2]
  · rfl

/-- Where the string holds no backslash-`u`, the loop cuts at the first
backslash-`U`. -/
theorem splitEscape_of_u8 (s : Str) (j : Nat) (h4 : index s [0x5C, 0x75] = none)
    (h : index s [0x5C, 0x55] = some j) :
    splitEscape s = some (s.take j, (s.drop (j + 2)).take 8, s.drop (j + 10)) := by
  simp only [splitEscape, introU4, introU8, h4, h]
  split_ifs with hc
  · have e1 : (s.drop (j + 2)).take 8 = s.drop (j + 2) :=
      List.take_of_length_le (by simp only [List.length_drop]; omega)
    have e2 : s.drop (j + 10) = [] := List.drop_eq_nil_of_le (by omega)
    rw [e1, e2]
  · rfl

/-- C17, as the claim states it, fails: in the input backslash-`U`, `0000`,
backslash-`u`, `0041` the backslash-`U` stands at index 0, before the first
backslash-`u` at index 6, yet the first substitution replaces the
backslash-`u` escape; the function returns LF, while a decoder that takes the
leftmost introducer fails on the hex field `0000\u00`. -/
theorem unescapeUChar_takes_u_first :
    index (ascii "\\U0000\\u0041") [0x5C, 0x55] = some 0 ∧
    index (ascii "\\U0000\\u0041") [0x5C, 0x75] = some 6 ∧
    splitEscape (ascii "\\U0000\\u0041") = some (ascii "\\U0000", ascii "0041", []) ∧
    unescapeUChar (ascii "\\U0000\\u0041") = .ok [0x0A] ∧
    unescapeLeftmost (ascii "\\U0000\\u0041") = .panic (.numError .ErrSyntax) := by
  decide

/-- C17, amended: where the input holds a backslash-`u`, the first
substitution replaces the first backslash-`u` escape (with the 4 bytes after
it, or what is left of the string, as the hex field), wherever a
backslash-`U` stands; a backslash-`U` escape, the first one (with 8 bytes or
what is left), is replaced only where the string holds no backslash-`u`. -/
theorem unescapeUChar_order (s : Str) :
    (∀ i, index s [0x5C, 0x75] = some i →
      splitEscape s = some (s.take i, (s.drop (i + 2)).take 4, s.drop (i + 6)) ∧
      unescapeUChar s =
        match parseInt ((s.drop (i + 2)).take 4) 16 32 with
        | .error e => .panic (.numError e)
        | .ok num => unescapeUChar (s.take i ++ runeToString (toRune num) ++ s.drop (i + 6))) ∧
    (index s [0x5C, 0x75] = none → ∀ j, index s [0x5C, 0x55] = some j →
      splitEscape s = some (s.take j, (s.drop (j + 2)).take 8, s.drop (j + 10)) ∧
      unescapeUChar s =
        match parseInt ((s.drop (j + 2)).take 8) 16 32 with
        | .error e => .panic (.numError e)
        | .ok num => unescapeUChar (s.take j ++ runeToString (toRune num) ++ s.drop (j + 10))) := by
  constructor
  · intro i hi
    have hs := splitEscape_of_u4 s i hi
    refine ⟨hs, ?_⟩
    rw [unescapeUChar_step s, hs]
  · intro h4 j hj
    have hs := splitEscape_of_u8 s j h4 hj
    refine ⟨hs, ?_⟩
    rw [unescapeUChar_step s, hs]

/-- The witness of C17: the input of the counterexample, whose first
backslash-`u` stands at index 6. -/
theorem unescapeUChar_order_witness :
    splitEscape (ascii "\\U0000\\u0041") =
      some ((ascii "\\U0000\\u0041").take 6, ((ascii "\\U0000\\u0041").drop (6 + 2)).take 4,
        (ascii "\\U0000\\u0041").drop (6 + 6)) :=
  ((unescapeUChar_order (ascii "\\U0000\\u0041")).1 6 (by decide)).1

/-- The loop of `unescapeUChar` returns a string only where no introducer is
left in it. -/
theorem unescapeUCharLoop_ok_split (fuel : Nat) (s r : Str)
    (h : unescapeUCharLoop fuel s = .ok r) : splitEscape r = none := by
  induction fuel generalizing s with
  | zero => simp [unescapeUCharLoop] at h
  | succ k ih =>
    rw [unescapeUCharLoop] at h
    cases hsp : splitEscape s with
    | none =>
      simp only [hsp, Outcome.ok.injEq] at h
      subst h
      exact hsp
    | some triple =>
      obtain ⟨start, hex, tail⟩ := triple
      simp only [hsp] at h
      cases hp : parseInt hex 16 32 with
      | error e => simp [hp] at h
      | ok num =>
        simp only [hp] at h
        exact ih _ h

/-- C18: where `unescapeUChar` returns, its result contains neither
backslash-`u` nor backslash-`U`, and `unescapeUChar` returns the result
unchanged when applied to it; an escape that a substitution brings about is
decoded too: backslash-`u`, `005C`, `u0041` decodes to `A`. -/
theorem unescapeUChar_result_fixed (s r : Str) (h : unescapeUChar s = .ok r) :
    ¬ [0x5C, 0x75] <:+: r ∧ ¬ [0x5C, 0x55] <:+: r ∧
    unescapeUChar r = .ok r ∧
    (unescapeUChar s).bind unescapeUChar = unescapeUChar s ∧
    unescapeUChar (ascii "\\u005Cu0041") = .ok (ascii "A") := by
  have hsp := unescapeUCharLoop_ok_split _ s r h
  have h4 : ¬ [0x5C, 0x75] <:+: r := fun hin =>
    splitEscape_ne_none r 0x75 (Or.inl rfl) hin hsp
  have h8 : ¬ [0x5C, 0x55] <:+: r := fun hin =>
    splitEscape_ne_none r 0x55 (Or.inr rfl) hin hsp
  have hr : unescapeUChar r = .ok r := by
    rw [unescapeUChar_step r, hsp]
  refine ⟨h4, h8, hr, ?_, by decide⟩
  rw [h]
  exact hr

/-- The witness of C18: the input backslash-`u`, `005C`, `u0041` and its
result `A`. -/
theorem unescapeUChar_result_fixed_witness :
    ¬ [0x5C, 0x75] <:+: ascii "A" ∧ ¬ [0x5C, 0x55] <:+: ascii "A" ∧
    unescapeUChar (ascii "A") = .ok (ascii "A") ∧
    (unescapeUChar (ascii "\\u005Cu0041")).bind unescapeUChar =
      unescapeUChar (ascii "\\u005Cu0041") ∧
    unescapeUChar (ascii "\\u005Cu0041") = .ok (ascii "A") :=
  unescapeUChar_result_fixed (ascii "\\u005Cu0041") (ascii "A") (by decide)

/-- C19: for each of the four delimiters, the quoted token whose body is
backslash-`u`, `005C`, `n` has the lexical form of the single byte LF: the
backslash that the Unicode pass writes is taken by the short-escape pass for
the start of the escape of LF. -/
theorem lexicalForm_unicode_backslash (d : Str)
    (hd : d ∈ [[0x22], [0x27], [0x22, 0x22, 0x22], [(0x27 : UInt8), 0x27, 0x27]]) :
    lexicalForm (d ++ ascii "\\u005Cn" ++ d) = .ok [0x0A] := by
  simp only [List.mem_cons, List.mem_singleton, List.not_mem_nil, or_false] at hd
  rcases hd with rfl | rfl | rfl | rfl <;> decide

/-- The witness of C19: the token between double quotes. -/
theorem lexicalForm_unicode_backslash_witness :
    lexicalForm ([0x22] ++ ascii "\\u005Cn" ++ [0x22]) = .ok [0x0A] :=
  lexicalForm_unicode_backslash [0x22] (by decide)

/-- C20: `unescapeUChar` terminates on every input: the loop, run with a
budget of `len(s) + 1` rounds or any larger one, is left, with the same
outcome; and a round that is not the last (an introducer is found and its hex
field parses) writes a rune that has fewer bytes than the introducer and the
hex field it replaces, so that the string gets shorter. -/
theorem unescapeUChar_terminates (s : Str) :
    unescapeUChar s ≠ .unfinished ∧
    (∀ fuel, s.length < fuel → unescapeUCharLoop fuel s = unescapeUChar s) ∧
    (∀ start hex tail num, splitEscape s = some (start, hex, tail) →
      parseInt hex 16 32 = .ok num →
        (runeToString (toRune num)).length < 2 + hex.length ∧
        (start ++ runeToString (toRune num) ++ tail).length < s.length) := by
  refine ⟨unescapeUChar_finishes s, fun fuel h => unescapeUCharLoop_budget fuel s h, ?_⟩
  intro start hex tail num hsp hp
  have hlt := length_replacement_lt hex num hp
  refine ⟨hlt, ?_⟩
  obtain ⟨x, hjoin, -⟩ := splitEscape_join s start hex tail hsp
  have hl : s.length = start.length + 2 + (hex.length + tail.length) := by
    rw [hjoin]; simp; omega
  simp only [List.length_append]
  omega

/-- The witness of C20: the truncated and sign-prefixed escape backslash-`u`,
`-1`, four bytes that are replaced by the three bytes of `U+FFFD`. -/
theorem unescapeUChar_terminates_witness :
    (runeToString (toRune (-1))).length < 2 + (ascii "-1").length ∧
    ([] ++ runeToString (toRune (-1)) ++ []).length < (ascii "\\u-1").length :=
  (unescapeUChar_terminates (ascii "\\u-1")).2.2 [] (ascii "-1") [] (-1) (by decide) (by decide)

end Gon3
